import Mathlib

/-!
HashTableLib: a separate-chaining hash table (`src/hash_table.h`).

Shallow embedding of the class template `HashTable<KeyType, ValueType, HashType, EqualType>`.

* `std::vector<std::forward_list<std::pair<KeyType, ValueType>>>` is a list of chains, a chain
  being a list of pairs whose head is the front of the `forward_list`.
* `size_t` counters are natural numbers.  A wrap of `size_` or `bucket_count_` needs a bucket
  array of more than `2^63` chains, which no allocation provides, so no operation below is
  evaluated modulo `2^64`.
* The functors `hash_` and `key_equal_` are parameters `hash_ : K → Nat` and
  `key_equal_ : K → K → Bool`; the value type has `==` (decidable equality) and is
  constructible from the literal `0`.
* An operation returns `Except Fault _`: `Fault.out_of_range` is the exception thrown by `at`,
  `Fault.undefined_behaviour` stands for a vector subscript out of range, a zero modulus or a
  dereference of a past-the-end iterator.
* A `forward_list` iterator is a pointer to a node or the null pointer (past-the-end of every
  list); a node is identified by its bucket and its distance from the front of the chain.
* The loop of `operator++` steps through the bucket array and is defined by recursion on the
  number of buckets left; a traversal `for (it = begin(); it != end(); ++it)` is cut after a
  given number of tests of its condition, and the results about it hold for every larger
  number.
-/

namespace HashTableLib

/-- The two ways an operation can fail to return. -/
inductive Fault where
  | out_of_range
  | undefined_behaviour
  deriving DecidableEq, Repr

deriving instance DecidableEq for Except

/-- The data members `hash_table_`, `bucket_count_`, `size_` (lines 225, 239, 240). -/
structure HashTable (K V : Type) where
  hash_table_ : List (List (K × V))
  bucket_count_ : Nat
  size_ : Nat
  deriving DecidableEq, Repr

/-- A `std::forward_list<...>::iterator`: a node of some chain, or the null past-the-end
iterator shared by all chains. -/
inductive ListIterator where
  | node (bucket pos : Nat)
  | past_end
  deriving DecidableEq, Repr

/-- The data members of `HashTableIterator` (lines 43 to 45), the back-reference left out. -/
structure HashTableIterator where
  hash_table_index_ : Nat
  iterator_ : ListIterator
  deriving DecidableEq, Repr

/-- `HashTableIterator::operator!=` (lines 38 to 40): only the list iterators are compared. -/
def HashTableIterator.ne (a b : HashTableIterator) : Bool :=
  decide (a.iterator_ ≠ b.iterator_)

section Operations

variable {K V : Type}

/-- `hash_(key) % bucket_count_`; the modulus must not be zero. -/
def slot (hash_ : K → Nat) (bucket_count_ : Nat) (key : K) : Except Fault Nat :=
  if bucket_count_ = 0 then .error .undefined_behaviour else .ok (hash_ key % bucket_count_)

/-- The vector subscript `hash_table_[i]`; the index must be in range. -/
def bucket (hash_table_ : List (List (K × V))) (i : Nat) : Except Fault (List (K × V)) :=
  match hash_table_[i]? with
  | some chain => .ok chain
  | none => .error .undefined_behaviour

/-- The scanning loop shared by `operator[]`, `at`, `insert` and `find`: `cell` runs through the
chain while `now_iterator` is advanced in step; the result is the position of `now_iterator`
and the cell it points to at the first cell satisfying the test. -/
def scan (test : K × V → Bool) : List (K × V) → Option (Nat × (K × V))
  | [] => none
  | cell :: rest =>
    if test cell then some (0, cell) else (scan test rest).map (fun r => (r.1 + 1, r.2))

/-- The default constructor `HashTable()` (lines 82 to 84), with the member initialisers
`bucket_count_ = 1000` and `size_ = 0`. -/
def HashTable.new : HashTable K V :=
  { hash_table_ := List.replicate 1000 [], bucket_count_ := 1000, size_ := 0 }

/-- One step of the inner loop of `Rehash` (line 233):
`new_hash_table[hash_(key) % bucket_count_].push_front({key, value})`. -/
def rehash_cell (hash_ : K → Nat) (bucket_count_ : Nat) (new_hash_table : List (List (K × V)))
    (cell : K × V) : Except Fault (List (List (K × V))) := do
  let i ← slot hash_ bucket_count_ cell.1
  let chain ← bucket new_hash_table i
  pure (new_hash_table.set i ((cell.1, cell.2) :: chain))

/-- `Rehash` (lines 228 to 237). -/
def Rehash (hash_ : K → Nat) (t : HashTable K V) : Except Fault (HashTable K V) := do
  let bucket_count_ := t.bucket_count_ * 2
  let new_hash_table ← t.hash_table_.foldlM
    (fun acc fl => fl.foldlM (rehash_cell hash_ bucket_count_) acc)
    (List.replicate bucket_count_ [])
  pure { hash_table_ := new_hash_table, bucket_count_ := bucket_count_, size_ := t.size_ }

/-- The common opening of `operator[]` and `insert` (lines 87 to 90 and 116 to 119):
`++size_; if (size_ > bucket_count_) Rehash();`. -/
def grow (hash_ : K → Nat) (t : HashTable K V) : Except Fault (HashTable K V) :=
  let t1 : HashTable K V := { t with size_ := t.size_ + 1 }
  if t1.size_ > t1.bucket_count_ then Rehash hash_ t1 else .ok t1

/-- `operator[]` (lines 86 to 101).  The returned reference is the place (bucket, position) of
the value it refers to. -/
def operator_index [Zero V] (hash_ : K → Nat) (key_equal_ : K → K → Bool) (t : HashTable K V)
    (key : K) : Except Fault (HashTable K V × (Nat × Nat)) := do
  let t ← grow hash_ t
  let now_hash ← slot hash_ t.bucket_count_ key
  let chain ← bucket t.hash_table_ now_hash
  match scan (fun cell => key_equal_ key cell.1) chain with
  | some (now_iterator, _) => pure (t, (now_hash, now_iterator))
  | none =>
    pure ({ t with hash_table_ := t.hash_table_.set now_hash ((key, 0) :: chain) }, (now_hash, 0))

/-- Assignment through a `ValueType&` obtained from `operator[]`. -/
def assign (t : HashTable K V) (ref : Nat × Nat) (value : V) : Except Fault (HashTable K V) := do
  let chain ← bucket t.hash_table_ ref.1
  match chain[ref.2]? with
  | some cell =>
    pure { t with hash_table_ := t.hash_table_.set ref.1 (chain.set ref.2 (cell.1, value)) }
  | none => .error .undefined_behaviour

/-- The statement `t[key] = value`. -/
def index_assign [Zero V] (hash_ : K → Nat) (key_equal_ : K → K → Bool) (t : HashTable K V)
    (key : K) (value : V) : Except Fault (HashTable K V) := do
  let (t, ref) ← operator_index hash_ key_equal_ t key
  assign t ref value

/-- `at` (lines 103 to 113). -/
def at_ (hash_ : K → Nat) (key_equal_ : K → K → Bool) (t : HashTable K V) (key : K) :
    Except Fault V := do
  let now_hash ← slot hash_ t.bucket_count_ key
  let chain ← bucket t.hash_table_ now_hash
  match scan (fun cell => key_equal_ key cell.1) chain with
  | some (_, cell) => pure cell.2
  | none => .error .out_of_range

/-- `insert` (lines 115 to 130). -/
def insert [DecidableEq V] (hash_ : K → Nat) (key_equal_ : K → K → Bool) (t : HashTable K V)
    (kvp : K × V) : Except Fault (HashTable K V × (HashTableIterator × Bool)) := do
  let t ← grow hash_ t
  let now_hash ← slot hash_ t.bucket_count_ kvp.1
  let chain ← bucket t.hash_table_ now_hash
  match scan (fun cell => key_equal_ kvp.1 cell.1 && decide (cell.2 = kvp.2)) chain with
  | some (now_iterator, _) => pure (t, (⟨now_hash, .node now_hash now_iterator⟩, false))
  | none =>
    pure ({ t with hash_table_ := t.hash_table_.set now_hash (kvp :: chain) },
      (⟨now_hash, .node now_hash 0⟩, true))

/-- `emplace` (lines 132 to 135). -/
def emplace [DecidableEq V] (hash_ : K → Nat) (key_equal_ : K → K → Bool) (t : HashTable K V)
    (key : K) (value : V) : Except Fault (HashTable K V × (HashTableIterator × Bool)) :=
  let kvp : K × V := (key, value)
  insert hash_ key_equal_ t kvp

/-- `empty` (lines 137 to 139). -/
def empty (t : HashTable K V) : Bool := t.size_ == 0

/-- `size` (lines 141 to 143). -/
def size (t : HashTable K V) : Nat := t.size_

/-- `clear` (lines 145 to 150). -/
def clear (_t : HashTable K V) : HashTable K V :=
  { hash_table_ := List.replicate 1000 [], size_ := 0, bucket_count_ := 1000 }

/-- The non-const `end` (lines 156 to 158): the past-the-end iterator of the last chain.
With `bucket_count_ = 0` the index `bucket_count_ - 1` wraps and is out of range. -/
def end_ (t : HashTable K V) : Except Fault HashTableIterator := do
  if t.bucket_count_ = 0 then .error .undefined_behaviour
  let _ ← bucket t.hash_table_ (t.bucket_count_ - 1)
  pure ⟨t.bucket_count_ - 1, .past_end⟩

/-- `find` (lines 169 to 179). -/
def find (hash_ : K → Nat) (key_equal_ : K → K → Bool) (t : HashTable K V) (to_find : K) :
    Except Fault HashTableIterator := do
  let now_hash ← slot hash_ t.bucket_count_ to_find
  let chain ← bucket t.hash_table_ now_hash
  match scan (fun cell => key_equal_ to_find cell.1) chain with
  | some (now_iterator, _) => pure ⟨now_hash, .node now_hash now_iterator⟩
  | none => end_ t

/-- `HashTableIterator::operator*` (lines 19 to 21): the pair stored in the node `iterator_`
points to. -/
def deref (t : HashTable K V) (it : HashTableIterator) : Except Fault (K × V) :=
  match it.iterator_ with
  | .past_end => .error .undefined_behaviour
  | .node b pos => do
    let chain ← bucket t.hash_table_ b
    match chain[pos]? with
    | some cell => pure (cell.1, cell.2)
    | none => .error .undefined_behaviour

/-- `std::forward_list::begin()` of the chain of bucket `b`: its first node, or the
past-the-end iterator when the chain is empty. -/
def chain_begin (b : Nat) : List (K × V) → ListIterator
  | [] => .past_end
  | _ :: _ => .node b 0

/-- `++iterator_` on a list iterator: the next node of the chain, the past-the-end iterator
after the last node; the iterator must point to a node. -/
def list_increment (t : HashTable K V) : ListIterator → Except Fault ListIterator
  | .past_end => .error .undefined_behaviour
  | .node b pos => do
    let chain ← bucket t.hash_table_ b
    if pos + 1 < chain.length then pure (.node b (pos + 1))
    else if pos + 1 = chain.length then pure .past_end
    else .error .undefined_behaviour

/-- The non-const `begin` (lines 152 to 154): the first position of bucket 0. -/
def begin (t : HashTable K V) : Except Fault HashTableIterator := do
  let chain ← bucket t.hash_table_ 0
  pure ⟨0, chain_begin 0 chain⟩

/-- The `while` loop of `operator++` (lines 28 to 31): as long as the cursor differs from
`end()` and `iterator_` equals the `end()` of the chain `hash_table_index_`, step to the
`begin()` of the next chain. -/
def skip_exhausted (t : HashTable K V) (it : HashTableIterator) :
    Except Fault HashTableIterator :=
  match end_ t with
  | .error f => .error f
  | .ok e =>
    if it.ne e then
      match t.hash_table_[it.hash_table_index_]? with
      | none => .error .undefined_behaviour
      | some _ =>
        if it.iterator_ = .past_end then
          if h : it.hash_table_index_ + 1 < t.hash_table_.length then
            skip_exhausted t ⟨it.hash_table_index_ + 1,
              chain_begin (it.hash_table_index_ + 1) (t.hash_table_[it.hash_table_index_ + 1])⟩
          else .error .undefined_behaviour
        else .ok it
    else .ok it
termination_by t.hash_table_.length - it.hash_table_index_

/-- `HashTableIterator::operator++` (lines 27 to 36). -/
def operator_increment (t : HashTable K V) (it : HashTableIterator) :
    Except Fault HashTableIterator := do
  let it ← skip_exhausted t it
  let e ← end_ t
  if it.ne e then
    let next ← list_increment t it.iterator_
    pure { it with iterator_ := next }
  else pure it

/-- The loop `for (it = ...; it != end(); ++it)` collecting `*it`, cut after `fuel` tests of
the loop condition: `none` when the loop has not ended by then. -/
def traverse_from (t : HashTable K V) : Nat → HashTableIterator →
    Except Fault (Option (List (K × V)))
  | 0, _ => pure none
  | fuel + 1, it => do
    let e ← end_ t
    if it.ne e then
      let cell ← deref t it
      let it ← operator_increment t it
      let rest ← traverse_from t fuel it
      pure (rest.map (fun cells => cell :: cells))
    else pure (some [])

/-- The full traversal `for (it = begin(); it != end(); ++it)`. -/
def traverse (t : HashTable K V) (fuel : Nat) : Except Fault (Option (List (K × V))) := do
  let it ← begin t
  traverse_from t fuel it

/-- The constructor from a vector of pairs (lines 181 to 185).  It has no initialiser list and
no `resize`: `hash_table_` starts as the empty vector, `bucket_count_` as 1000, `size_` as 0. -/
def from_vector [Zero V] (hash_ : K → Nat) (key_equal_ : K → K → Bool) (vect : List (K × V)) :
    Except Fault (HashTable K V) :=
  vect.foldlM (fun t kv => index_assign hash_ key_equal_ t kv.1 kv.2)
    { hash_table_ := [], bucket_count_ := 1000, size_ := 0 }

/-- All entries of the table, bucket by bucket. -/
def entries (t : HashTable K V) : List (K × V) := t.hash_table_.flatten

/-- The mutating calls of the public interface. -/
inductive Op (K V : Type) where
  | index (key : K)
  | index_assign (key : K) (value : V)
  | insert (kvp : K × V)
  | emplace (key : K) (value : V)
  | clear

/-- The table left by one call. -/
def Op.run [Zero V] [DecidableEq V] (hash_ : K → Nat) (key_equal_ : K → K → Bool)
    (t : HashTable K V) : Op K V → Except Fault (HashTable K V)
  | .index key => (HashTableLib.operator_index hash_ key_equal_ t key).map Prod.fst
  | .index_assign key value => HashTableLib.index_assign hash_ key_equal_ t key value
  | .insert kvp => (HashTableLib.insert hash_ key_equal_ t kvp).map Prod.fst
  | .emplace key value => (HashTableLib.emplace hash_ key_equal_ t key value).map Prod.fst
  | .clear => .ok (HashTableLib.clear t)

/-- The calls that add to the table: every call but `clear`. -/
def Op.adds : Op K V → Bool
  | .clear => false
  | _ => true

/-- A sequence of calls, run from left to right. -/
def run_ops [Zero V] [DecidableEq V] (hash_ : K → Nat) (key_equal_ : K → K → Bool)
    (t : HashTable K V) (ops : List (Op K V)) : Except Fault (HashTable K V) :=
  ops.foldlM (Op.run hash_ key_equal_) t

/-- The calls other than `insert` and `emplace`. -/
def Op.by_index : Op K V → Bool
  | .insert _ => false
  | .emplace _ _ => false
  | _ => true

/-- The key a call is made with, put in front of the keys seen so far; `clear` forgets them. -/
def Op.note (seen : List K) : Op K V → List K
  | .index key => key :: seen
  | .index_assign key _ => key :: seen
  | .insert kvp => kvp.1 :: seen
  | .emplace key _ => key :: seen
  | .clear => []

/-- The keys of the calls made since the last `clear`, the latest first. -/
def assigned_keys (ops : List (Op K V)) : List K := ops.foldl Op.note []

/-- The number of distinct keys of a list: the keys not equal to a key further down. -/
def distinct_count (key_equal_ : K → K → Bool) : List K → Nat
  | [] => 0
  | key :: earlier =>
    (if earlier.any (fun s => key_equal_ key s) then 0 else 1) + distinct_count key_equal_ earlier

/-- The tables a program obtains from the default constructor by `operator[]`, assignment
through `operator[]`, `insert`, `emplace` and `clear`. -/
inductive Reachable [Zero V] [DecidableEq V] (hash_ : K → Nat) (key_equal_ : K → K → Bool) :
    HashTable K V → Prop where
  | init : Reachable hash_ key_equal_ HashTable.new
  | step {t t' : HashTable K V} (op : Op K V) :
      Reachable hash_ key_equal_ t → op.run hash_ key_equal_ t = .ok t' →
      Reachable hash_ key_equal_ t'

/-- Every cell of the bucket array lies in the bucket its key hashes to, for `B` buckets. -/
def Placed (hash_ : K → Nat) (B : Nat) (ht : List (List (K × V))) : Prop :=
  ∀ i chain, ht[i]? = some chain → ∀ cell ∈ chain, hash_ cell.1 % B = i

/-- Well-formedness of the bucket array: one chain per bucket, at least one bucket, and every
cell in the chain its key hashes to. -/
structure WF (hash_ : K → Nat) (t : HashTable K V) : Prop where
  length_eq : t.hash_table_.length = t.bucket_count_
  pos : 0 < t.bucket_count_
  placed : Placed hash_ t.bucket_count_ t.hash_table_

/-- The keys `keys` stored in a table are pairwise unequal and are, up to key equality, the
keys `seen` in the calls; their number is the number of distinct keys of `seen`. -/
def KeysMatch (key_equal_ : K → K → Bool) (keys seen : List K) : Prop :=
  keys.Pairwise (fun a b => key_equal_ a b = false) ∧ (∀ a ∈ keys, a ∈ seen) ∧
    (∀ s ∈ seen, ∃ a ∈ keys, key_equal_ s a = true) ∧
    keys.length = distinct_count key_equal_ seen

/-- The key is found: `find(key)` and `end()` return and do not compare equal. -/
def Found (hash_ : K → Nat) (key_equal_ : K → K → Bool) (t : HashTable K V) (key : K) : Prop :=
  ∃ it e, find hash_ key_equal_ t key = .ok it ∧ end_ t = .ok e ∧ it.ne e = true

/-- What a call other than `clear` does after its opening `grow`: the counters stay, and the
bucket array is left alone, or gets one cell prepended to a chain, or gets the value of one
cell overwritten. -/
def Touched (t1 t' : HashTable K V) : Prop :=
  t'.size_ = t1.size_ ∧ t'.bucket_count_ = t1.bucket_count_ ∧
  (t'.hash_table_ = t1.hash_table_ ∨
    (∃ (i : Nat) (chain : List (K × V)) (cell : K × V), t1.hash_table_[i]? = some chain ∧
      t'.hash_table_ = t1.hash_table_.set i (cell :: chain)) ∨
    (∃ (i : Nat) (chain : List (K × V)) (pos : Nat) (cell : K × V) (value : V),
      t1.hash_table_[i]? = some chain ∧ chain[pos]? = some cell ∧
      t'.hash_table_ = t1.hash_table_.set i (chain.set pos (cell.1, value))))

end Operations

end HashTableLib

namespace HashTableLib

section Lemmas

variable {K V : Type}

/-! ## The scanning loop -/

theorem scan_eq_none {test : K × V → Bool} {chain : List (K × V)} :
    scan test chain = none ↔ ∀ cell ∈ chain, test cell = false := by
  induction chain with
  | nil => simp [scan]
  | cons c cs ih =>
    by_cases hc : test c = true
    · simp [scan, hc]
    · simp [scan, hc, ih]

theorem scan_eq_some {test : K × V → Bool} {chain : List (K × V)} {pos : Nat} {cell : K × V}
    (h : scan test chain = some (pos, cell)) :
    chain[pos]? = some cell ∧ test cell = true ∧
      ∀ j, j < pos → ∀ c, chain[j]? = some c → test c = false := by
  induction chain generalizing pos with
  | nil => simp [scan] at h
  | cons c cs ih =>
    by_cases hc : test c = true
    · simp only [scan, hc, if_true, Option.some.injEq, Prod.mk.injEq] at h
      obtain ⟨rfl, rfl⟩ := h
      simp [hc]
    · simp only [scan, hc, Bool.false_eq_true, if_false, Option.map_eq_some', Prod.mk.injEq] at h
      obtain ⟨⟨p, c'⟩, hs, rfl, rfl⟩ := h
      obtain ⟨h1, h2, h3⟩ := ih hs
      refine ⟨by simpa using h1, h2, ?_⟩
      intro j hj d hd
      cases j with
      | zero => simp at hd; subst hd; simpa using hc
      | succ j => exact h3 j (by omega) d (by simpa using hd)

theorem scan_first {test : K × V → Bool} {chain : List (K × V)} {pos : Nat} {cell : K × V}
    (h1 : chain[pos]? = some cell) (h2 : test cell = true)
    (h3 : ∀ j, j < pos → ∀ c, chain[j]? = some c → test c = false) :
    scan test chain = some (pos, cell) := by
  induction chain generalizing pos with
  | nil => simp at h1
  | cons c cs ih =>
    cases pos with
    | zero =>
      simp at h1; subst h1
      simp [scan, h2]
    | succ p =>
      have hc : test c = false := h3 0 (by omega) c (by simp)
      have := @ih p (by simpa using h1)
        (fun j hj d hd => h3 (j + 1) (by omega) d (by simpa using hd))
      simp [scan, hc, this]

theorem scan_isSome_iff {test : K × V → Bool} {chain : List (K × V)} :
    (∃ r, scan test chain = some r) ↔ ∃ cell ∈ chain, test cell = true := by
  constructor
  · rintro ⟨⟨pos, cell⟩, h⟩
    obtain ⟨h1, h2, -⟩ := scan_eq_some h
    exact ⟨cell, List.getElem?_mem h1, h2⟩
  · rintro ⟨cell, hm, ht⟩
    cases hs : scan test chain with
    | some r => exact ⟨r, rfl⟩
    | none => rw [scan_eq_none] at hs; simp [hs cell hm] at ht

/-! ## Bucket arrays -/

theorem slot_ok (hash_ : K → Nat) {B : Nat} (hB : 0 < B) (key : K) :
    slot hash_ B key = .ok (hash_ key % B) := by
  simp [slot, Nat.pos_iff_ne_zero.mp hB]

theorem bucket_ok {ht : List (List (K × V))} {i : Nat} {chain : List (K × V)}
    (h : ht[i]? = some chain) : bucket ht i = .ok chain := by
  simp [bucket, h]

theorem bucket_of_lt (ht : List (List (K × V))) (i : Nat) (h : i < ht.length) :
    ∃ chain, ht[i]? = some chain ∧ bucket ht i = .ok chain :=
  ⟨ht[i], List.getElem?_eq_getElem h, bucket_ok (List.getElem?_eq_getElem h)⟩

theorem flatten_set_cons {ht : List (List (K × V))} {i : Nat} {chain : List (K × V)}
    (h : ht[i]? = some chain) (cell : K × V) :
    (ht.set i (cell :: chain)).flatten.Perm (cell :: ht.flatten) := by
  induction ht generalizing i with
  | nil => simp at h
  | cons b bs ih =>
    cases i with
    | zero =>
      simp at h; subst h
      simp
    | succ i =>
      have := ih (i := i) (by simpa using h)
      simp only [List.set_cons_succ, List.flatten_cons]
      exact (List.Perm.append_left b this).trans List.perm_middle

theorem flatten_set_value {ht : List (List (K × V))} {i pos : Nat} {chain : List (K × V)}
    {cell : K × V} (h : ht[i]? = some chain) (hc : chain[pos]? = some cell) (value : V) :
    (ht.set i (chain.set pos (cell.1, value))).flatten.length = ht.flatten.length := by
  induction ht generalizing i with
  | nil => simp at h
  | cons b bs ih =>
    cases i with
    | zero =>
      simp at h; subst h
      simp
    | succ i =>
      have := ih (i := i) (by simpa using h)
      simp only [List.set_cons_succ, List.flatten_cons, List.length_append, this]

theorem placed_set {hash_ : K → Nat} {B : Nat} {ht : List (List (K × V))} {i : Nat}
    {chain : List (K × V)} (hp : Placed hash_ B ht)
    (hc : ∀ cell ∈ chain, hash_ cell.1 % B = i) : Placed hash_ B (ht.set i chain) := by
  intro j c hj cell hm
  rw [List.getElem?_set] at hj
  split at hj
  · next hij =>
    subst hij
    split at hj
    · simp at hj; subst hj; exact hc cell hm
    · simp at hj
  · exact hp j c hj cell hm

theorem placed_replicate (hash_ : K → Nat) (B n : Nat) :
    Placed hash_ B (List.replicate n ([] : List (K × V))) := by
  intro i chain h cell hm
  rw [List.getElem?_replicate] at h
  split at h
  · simp at h; subst h; simp at hm
  · simp at h

/-! ## Rehash -/

theorem rehash_cell_ok (hash_ : K → Nat) {B : Nat} (hB : 0 < B) {acc : List (List (K × V))}
    (hlen : acc.length = B) (cell : K × V) :
    ∃ chain, acc[hash_ cell.1 % B]? = some chain ∧
      rehash_cell hash_ B acc cell = .ok (acc.set (hash_ cell.1 % B) (cell :: chain)) := by
  obtain ⟨chain, h1, h2⟩ := bucket_of_lt acc (hash_ cell.1 % B)
    (by rw [hlen]; exact Nat.mod_lt _ hB)
  refine ⟨chain, h1, ?_⟩
  simp [rehash_cell, slot_ok hash_ hB, h2, bind, Except.bind, pure, Except.pure]

theorem rehash_chain (hash_ : K → Nat) {B : Nat} (hB : 0 < B) (fl : List (K × V))
    (acc : List (List (K × V))) (hlen : acc.length = B) (hp : Placed hash_ B acc) :
    ∃ acc', fl.foldlM (rehash_cell hash_ B) acc = .ok acc' ∧ acc'.length = B ∧
      Placed hash_ B acc' ∧ acc'.flatten.Perm (fl ++ acc.flatten) := by
  induction fl generalizing acc with
  | nil => exact ⟨acc, rfl, hlen, hp, List.Perm.refl _⟩
  | cons cell rest ih =>
    obtain ⟨chain, h1, h2⟩ := rehash_cell_ok hash_ hB hlen cell
    have hp' : Placed hash_ B (acc.set (hash_ cell.1 % B) (cell :: chain)) := by
      apply placed_set hp
      intro c hc
      rcases List.mem_cons.mp hc with rfl | hc
      · rfl
      · exact hp _ _ h1 c hc
    obtain ⟨acc', e, l', p', q'⟩ := ih (acc.set (hash_ cell.1 % B) (cell :: chain))
      (by simpa using hlen) hp'
    refine ⟨acc', ?_, l', p', ?_⟩
    · simp [List.foldlM_cons, h2, bind, Except.bind, e]
    · refine q'.trans ?_
      refine (List.Perm.append_left rest (flatten_set_cons h1 cell)).trans ?_
      exact List.perm_middle

theorem rehash_buckets (hash_ : K → Nat) {B : Nat} (hB : 0 < B) (ht : List (List (K × V)))
    (acc : List (List (K × V))) (hlen : acc.length = B) (hp : Placed hash_ B acc) :
    ∃ acc', ht.foldlM (fun acc fl => fl.foldlM (rehash_cell hash_ B) acc) acc = .ok acc' ∧
      acc'.length = B ∧ Placed hash_ B acc' ∧ acc'.flatten.Perm (ht.flatten ++ acc.flatten) := by
  induction ht generalizing acc with
  | nil => exact ⟨acc, rfl, hlen, hp, List.Perm.refl _⟩
  | cons fl rest ih =>
    obtain ⟨acc1, e1, l1, p1, q1⟩ := rehash_chain hash_ hB fl acc hlen hp
    obtain ⟨acc2, e2, l2, p2, q2⟩ := ih acc1 l1 p1
    refine ⟨acc2, ?_, l2, p2, ?_⟩
    · simp [List.foldlM_cons, e1, bind, Except.bind, e2]
    · refine q2.trans ?_
      refine (List.Perm.append_left rest.flatten q1).trans ?_
      simp only [List.flatten_cons, List.append_assoc]
      exact (List.perm_append_comm_assoc _ _ _)

theorem Rehash_spec (hash_ : K → Nat) (t : HashTable K V) (hB : 0 < t.bucket_count_) :
    ∃ t', Rehash hash_ t = .ok t' ∧ t'.bucket_count_ = 2 * t.bucket_count_ ∧
      t'.hash_table_.length = 2 * t.bucket_count_ ∧ t'.size_ = t.size_ ∧
      Placed hash_ t'.bucket_count_ t'.hash_table_ ∧ (entries t').Perm (entries t) := by
  have hB2 : 0 < t.bucket_count_ * 2 := by omega
  obtain ⟨acc, e, l, p, q⟩ := rehash_buckets hash_ hB2 t.hash_table_
    (List.replicate (t.bucket_count_ * 2) []) (by simp) (placed_replicate _ _ _)
  refine ⟨⟨acc, t.bucket_count_ * 2, t.size_⟩, ?_, by simp; omega, by simp [l]; omega, rfl, p, ?_⟩
  · simp [Rehash, e, bind, Except.bind, pure, Except.pure]
  · simpa [entries] using q

/-! ## Well-formed tables -/

theorem WF.new (hash_ : K → Nat) : WF hash_ (HashTable.new : HashTable K V) :=
  ⟨List.length_replicate _ _, Nat.succ_pos _, placed_replicate hash_ 1000 1000⟩

theorem WF.clear (hash_ : K → Nat) (t : HashTable K V) : WF hash_ (clear t) :=
  ⟨List.length_replicate _ _, Nat.succ_pos _, placed_replicate hash_ 1000 1000⟩

theorem WF.chain {hash_ : K → Nat} {t : HashTable K V} (h : WF hash_ t) (key : K) :
    ∃ chain, t.hash_table_[hash_ key % t.bucket_count_]? = some chain ∧
      bucket t.hash_table_ (hash_ key % t.bucket_count_) = .ok chain :=
  bucket_of_lt _ _ (by rw [h.length_eq]; exact Nat.mod_lt _ h.pos)

theorem WF.set {hash_ : K → Nat} {t : HashTable K V} (h : WF hash_ t) {i : Nat}
    {chain : List (K × V)} (hc : ∀ cell ∈ chain, hash_ cell.1 % t.bucket_count_ = i) :
    WF hash_ { t with hash_table_ := t.hash_table_.set i chain } :=
  ⟨by simpa using h.length_eq, h.pos, placed_set h.placed hc⟩

theorem grow_spec {hash_ : K → Nat} {t : HashTable K V} (h : WF hash_ t) :
    ∃ t1, grow hash_ t = .ok t1 ∧ WF hash_ t1 ∧ t1.size_ = t.size_ + 1 ∧
      (entries t1).Perm (entries t) ∧
      (t.size_ + 1 ≤ t.bucket_count_ → t1 = { t with size_ := t.size_ + 1 }) ∧
      (t.bucket_count_ < t.size_ + 1 → t1.bucket_count_ = 2 * t.bucket_count_) := by
  by_cases hs : t.size_ + 1 > t.bucket_count_
  · obtain ⟨t', e, b, l, sz, p, q⟩ :=
      Rehash_spec hash_ ({ t with size_ := t.size_ + 1 } : HashTable K V) h.pos
    refine ⟨t', by simp [grow, hs, e], ⟨by rw [l, b], by rw [b]; exact Nat.mul_pos (by omega) h.pos, p⟩,
      sz, q, fun hle => absurd hle (by omega), fun _ => b⟩
  · refine ⟨{ t with size_ := t.size_ + 1 }, by simp [grow, hs], ⟨h.length_eq, h.pos, h.placed⟩,
      rfl, List.Perm.refl _, fun _ => rfl, fun hlt => absurd hlt (by omega)⟩

theorem operator_index_eq [Zero V] {hash_ : K → Nat} (key_equal_ : K → K → Bool)
    {t t1 : HashTable K V} (hg : grow hash_ t = .ok t1) (h1 : WF hash_ t1) (key : K)
    {chain : List (K × V)} (hc : t1.hash_table_[hash_ key % t1.bucket_count_]? = some chain) :
    operator_index hash_ key_equal_ t key =
      match scan (fun cell => key_equal_ key cell.1) chain with
      | some (now_iterator, _) => .ok (t1, (hash_ key % t1.bucket_count_, now_iterator))
      | none => .ok
        ({ t1 with
            hash_table_ := t1.hash_table_.set (hash_ key % t1.bucket_count_) ((key, 0) :: chain) },
          (hash_ key % t1.bucket_count_, 0)) := by
  simp only [operator_index, hg, slot_ok hash_ h1.pos, bucket_ok hc, bind, Except.bind]
  cases scan (fun cell => key_equal_ key cell.1) chain with
  | none => rfl
  | some r => rfl

theorem insert_eq [DecidableEq V] {hash_ : K → Nat} (key_equal_ : K → K → Bool)
    {t t1 : HashTable K V} (hg : grow hash_ t = .ok t1) (h1 : WF hash_ t1) (kvp : K × V)
    {chain : List (K × V)} (hc : t1.hash_table_[hash_ kvp.1 % t1.bucket_count_]? = some chain) :
    insert hash_ key_equal_ t kvp =
      match scan (fun cell => key_equal_ kvp.1 cell.1 && decide (cell.2 = kvp.2)) chain with
      | some (now_iterator, _) => .ok (t1, (⟨hash_ kvp.1 % t1.bucket_count_,
          .node (hash_ kvp.1 % t1.bucket_count_) now_iterator⟩, false))
      | none => .ok
        ({ t1 with
            hash_table_ := t1.hash_table_.set (hash_ kvp.1 % t1.bucket_count_) (kvp :: chain) },
          (⟨hash_ kvp.1 % t1.bucket_count_, .node (hash_ kvp.1 % t1.bucket_count_) 0⟩, true)) := by
  simp only [insert, hg, slot_ok hash_ h1.pos, bucket_ok hc, bind, Except.bind]
  cases scan (fun cell => key_equal_ kvp.1 cell.1 && decide (cell.2 = kvp.2)) chain with
  | none => rfl
  | some r => rfl

theorem at_eq {hash_ : K → Nat} (key_equal_ : K → K → Bool) {t : HashTable K V}
    (h : WF hash_ t) (key : K) {chain : List (K × V)}
    (hc : t.hash_table_[hash_ key % t.bucket_count_]? = some chain) :
    at_ hash_ key_equal_ t key =
      match scan (fun cell => key_equal_ key cell.1) chain with
      | some (_, cell) => .ok cell.2
      | none => .error .out_of_range := by
  simp only [at_, slot_ok hash_ h.pos, bucket_ok hc, bind, Except.bind]
  cases scan (fun cell => key_equal_ key cell.1) chain with
  | none => rfl
  | some r => rfl

theorem end_eq {hash_ : K → Nat} {t : HashTable K V} (h : WF hash_ t) :
    end_ t = .ok ⟨t.bucket_count_ - 1, .past_end⟩ := by
  obtain ⟨chain, -, hb⟩ := bucket_of_lt t.hash_table_ (t.bucket_count_ - 1)
    (by have := h.pos; rw [h.length_eq]; omega)
  have hne : t.bucket_count_ ≠ 0 := Nat.pos_iff_ne_zero.mp h.pos
  simp [end_, hne, hb, bind, Except.bind, pure, Except.pure]

theorem find_eq {hash_ : K → Nat} (key_equal_ : K → K → Bool) {t : HashTable K V}
    (h : WF hash_ t) (key : K) {chain : List (K × V)}
    (hc : t.hash_table_[hash_ key % t.bucket_count_]? = some chain) :
    find hash_ key_equal_ t key =
      match scan (fun cell => key_equal_ key cell.1) chain with
      | some (now_iterator, _) => .ok ⟨hash_ key % t.bucket_count_,
          .node (hash_ key % t.bucket_count_) now_iterator⟩
      | none => .ok ⟨t.bucket_count_ - 1, .past_end⟩ := by
  simp only [find, slot_ok hash_ h.pos, bucket_ok hc, bind, Except.bind]
  cases scan (fun cell => key_equal_ key cell.1) chain with
  | none => exact end_eq h
  | some r => rfl

theorem deref_node {t : HashTable K V} {b pos i : Nat} {chain : List (K × V)} {cell : K × V}
    (hc : t.hash_table_[b]? = some chain) (hp : chain[pos]? = some cell) :
    deref t ⟨i, .node b pos⟩ = .ok cell := by
  simp [deref, bucket_ok hc, hp, bind, Except.bind, pure, Except.pure]

/-! ## The mutating calls on a well-formed table -/

theorem prologue {hash_ : K → Nat} {t : HashTable K V} (h : WF hash_ t) (key : K) :
    ∃ t1 chain, grow hash_ t = .ok t1 ∧ WF hash_ t1 ∧ t1.size_ = t.size_ + 1 ∧
      t1.hash_table_[hash_ key % t1.bucket_count_]? = some chain := by
  obtain ⟨t1, hg, h1, hs, -⟩ := grow_spec h
  obtain ⟨chain, hc, -⟩ := h1.chain key
  exact ⟨t1, chain, hg, h1, hs, hc⟩

theorem WF.push_front {hash_ : K → Nat} {t : HashTable K V} (h : WF hash_ t) (cell : K × V)
    {chain : List (K × V)} (hc : t.hash_table_[hash_ cell.1 % t.bucket_count_]? = some chain) :
    WF hash_ { t with
      hash_table_ := t.hash_table_.set (hash_ cell.1 % t.bucket_count_) (cell :: chain) } := by
  apply h.set
  intro c hm
  rcases List.mem_cons.mp hm with rfl | hm
  · rfl
  · exact h.placed _ _ hc c hm

theorem WF.set_value {hash_ : K → Nat} {t : HashTable K V} (h : WF hash_ t) {i pos : Nat}
    {chain : List (K × V)} {cell : K × V} (hc : t.hash_table_[i]? = some chain)
    (hp : chain[pos]? = some cell) (value : V) :
    WF hash_ { t with hash_table_ := t.hash_table_.set i (chain.set pos (cell.1, value)) } := by
  apply h.set
  intro c hm
  rcases List.mem_or_eq_of_mem_set hm with hm | rfl
  · exact h.placed _ _ hc c hm
  · exact h.placed _ _ hc cell (List.getElem?_mem hp)

theorem assign_eq (t : HashTable K V) {i pos : Nat} {chain : List (K × V)} {cell : K × V}
    (hc : t.hash_table_[i]? = some chain) (hp : chain[pos]? = some cell) (value : V) :
    assign t (i, pos) value =
      .ok { t with hash_table_ := t.hash_table_.set i (chain.set pos (cell.1, value)) } := by
  simp [assign, bucket_ok hc, hp, bind, Except.bind, pure, Except.pure]

theorem getElem?_set_same {α : Type} {l : List α} {i : Nat} {a b : α} (h : l[i]? = some a) :
    (l.set i b)[i]? = some b := by
  have hlt : i < l.length := by
    rcases List.getElem?_eq_some.mp h with ⟨hlt, -⟩
    exact hlt
  exact List.getElem?_set_self hlt

theorem index_assign_eq [Zero V] {hash_ : K → Nat} (key_equal_ : K → K → Bool)
    {t t1 : HashTable K V} (hg : grow hash_ t = .ok t1) (h1 : WF hash_ t1) (key : K) (value : V)
    {chain : List (K × V)} (hc : t1.hash_table_[hash_ key % t1.bucket_count_]? = some chain) :
    index_assign hash_ key_equal_ t key value =
      match scan (fun cell => key_equal_ key cell.1) chain with
      | some (now_iterator, cell) => .ok
        { t1 with
          hash_table_ := t1.hash_table_.set (hash_ key % t1.bucket_count_)
            (chain.set now_iterator (cell.1, value)) }
      | none => .ok
        { t1 with
          hash_table_ := t1.hash_table_.set (hash_ key % t1.bucket_count_)
            ((key, value) :: chain) } := by
  unfold index_assign
  rw [operator_index_eq key_equal_ hg h1 key hc]
  cases hs : scan (fun cell => key_equal_ key cell.1) chain with
  | none =>
    have h0 : (t1.hash_table_.set (hash_ key % t1.bucket_count_) ((key, (0 : V)) :: chain))[
        hash_ key % t1.bucket_count_]? = some ((key, 0) :: chain) := getElem?_set_same hc
    have hz : ((key, (0 : V)) :: chain)[0]? = some (key, 0) := by simp
    have := assign_eq { t1 with
      hash_table_ := t1.hash_table_.set (hash_ key % t1.bucket_count_) ((key, (0 : V)) :: chain) }
      h0 hz value
    simp only [bind, Except.bind, this, List.set_set, List.set_cons_zero]
  | some r =>
    obtain ⟨pos, cell⟩ := r
    obtain ⟨hp, -, -⟩ := scan_eq_some hs
    simp only [bind, Except.bind, assign_eq t1 hc hp value]

theorem WF.operator_index [Zero V] {hash_ : K → Nat} {key_equal_ : K → K → Bool}
    {t t' : HashTable K V} {key : K} {ref : Nat × Nat} (h : WF hash_ t)
    (e : operator_index hash_ key_equal_ t key = .ok (t', ref)) : WF hash_ t' := by
  obtain ⟨t1, chain, hg, h1, -, hc⟩ := prologue h key
  rw [operator_index_eq key_equal_ hg h1 key hc] at e
  cases hs : scan (fun cell => key_equal_ key cell.1) chain with
  | none =>
    simp only [hs, Except.ok.injEq, Prod.mk.injEq] at e
    rw [← e.1]
    exact h1.push_front (key, 0) hc
  | some r =>
    simp only [hs, Except.ok.injEq, Prod.mk.injEq] at e
    rw [← e.1]
    exact h1

theorem WF.index_assign [Zero V] {hash_ : K → Nat} {key_equal_ : K → K → Bool}
    {t t' : HashTable K V} {key : K} {value : V} (h : WF hash_ t)
    (e : index_assign hash_ key_equal_ t key value = .ok t') : WF hash_ t' := by
  obtain ⟨t1, chain, hg, h1, -, hc⟩ := prologue h key
  rw [index_assign_eq key_equal_ hg h1 key value hc] at e
  cases hs : scan (fun cell => key_equal_ key cell.1) chain with
  | none =>
    simp only [hs, Except.ok.injEq] at e
    rw [← e]
    exact h1.push_front (key, value) hc
  | some r =>
    obtain ⟨pos, cell⟩ := r
    simp only [hs, Except.ok.injEq] at e
    rw [← e]
    exact h1.set_value hc (scan_eq_some hs).1 value

theorem WF.insert [DecidableEq V] {hash_ : K → Nat} {key_equal_ : K → K → Bool}
    {t t' : HashTable K V} {kvp : K × V} {r : HashTableIterator × Bool} (h : WF hash_ t)
    (e : insert hash_ key_equal_ t kvp = .ok (t', r)) : WF hash_ t' := by
  obtain ⟨t1, chain, hg, h1, -, hc⟩ := prologue h kvp.1
  rw [insert_eq key_equal_ hg h1 kvp hc] at e
  cases hs : scan (fun cell => key_equal_ kvp.1 cell.1 && decide (cell.2 = kvp.2)) chain with
  | none =>
    simp only [hs, Except.ok.injEq, Prod.mk.injEq] at e
    rw [← e.1]
    exact h1.push_front kvp hc
  | some r =>
    simp only [hs, Except.ok.injEq, Prod.mk.injEq] at e
    rw [← e.1]
    exact h1

theorem map_fst_ok {α β : Type} {x : Except Fault (α × β)} {a : α}
    (h : x.map Prod.fst = .ok a) : ∃ b, x = .ok (a, b) := by
  cases x with
  | error f => simp [Except.map] at h
  | ok p =>
    obtain ⟨a', b⟩ := p
    simp only [Except.map, Except.ok.injEq] at h
    exact ⟨b, by rw [h]⟩

theorem WF.run [Zero V] [DecidableEq V] {hash_ : K → Nat} {key_equal_ : K → K → Bool}
    {t t' : HashTable K V} (h : WF hash_ t) (op : Op K V)
    (e : op.run hash_ key_equal_ t = .ok t') : WF hash_ t' := by
  cases op with
  | index key =>
    obtain ⟨ref, e⟩ := map_fst_ok e
    exact h.operator_index e
  | index_assign key value => exact h.index_assign e
  | insert kvp =>
    obtain ⟨r, e⟩ := map_fst_ok e
    exact h.insert e
  | emplace key value =>
    obtain ⟨r, e⟩ := map_fst_ok e
    exact h.insert e
  | clear =>
    simp only [Op.run, Except.ok.injEq] at e
    rw [← e]
    exact WF.clear hash_ t

theorem Reachable.wf [Zero V] [DecidableEq V] {hash_ : K → Nat} {key_equal_ : K → K → Bool}
    {t : HashTable K V} (h : Reachable hash_ key_equal_ t) : WF hash_ t := by
  induction h with
  | init => exact WF.new hash_
  | step op _ e ih => exact ih.run op e

/-! ## Lookups on a well-formed table -/

theorem lookup_hit {hash_ : K → Nat} (key_equal_ : K → K → Bool) {t : HashTable K V}
    (h : WF hash_ t) (key : K) {chain : List (K × V)} {pos : Nat} {cell : K × V}
    (hc : t.hash_table_[hash_ key % t.bucket_count_]? = some chain)
    (hs : scan (fun c => key_equal_ key c.1) chain = some (pos, cell)) :
    at_ hash_ key_equal_ t key = .ok cell.2 ∧
      ∃ it e, find hash_ key_equal_ t key = .ok it ∧ end_ t = .ok e ∧ it.ne e = true ∧
        deref t it = .ok cell := by
  refine ⟨by rw [at_eq key_equal_ h key hc, hs], _, _, by rw [find_eq key_equal_ h key hc, hs],
    end_eq h, by simp [HashTableIterator.ne], deref_node hc (scan_eq_some hs).1⟩

theorem lookup_miss {hash_ : K → Nat} (key_equal_ : K → K → Bool) {t : HashTable K V}
    (h : WF hash_ t) (key : K) {chain : List (K × V)}
    (hc : t.hash_table_[hash_ key % t.bucket_count_]? = some chain)
    (hs : scan (fun c => key_equal_ key c.1) chain = none) :
    at_ hash_ key_equal_ t key = .error .out_of_range ∧
      ∃ it e, find hash_ key_equal_ t key = .ok it ∧ end_ t = .ok e ∧ it.ne e = false := by
  refine ⟨by rw [at_eq key_equal_ h key hc, hs], _, _, by rw [find_eq key_equal_ h key hc, hs],
    end_eq h, by simp [HashTableIterator.ne]⟩

theorem scan_set_value (key_equal_ : K → K → Bool) (key : K) {chain : List (K × V)} {pos : Nat}
    {cell : K × V} (hs : scan (fun c => key_equal_ key c.1) chain = some (pos, cell)) (value : V) :
    scan (fun c => key_equal_ key c.1) (chain.set pos (cell.1, value)) =
      some (pos, (cell.1, value)) := by
  obtain ⟨h1, h2, h3⟩ := scan_eq_some hs
  apply scan_first
  · exact getElem?_set_same h1
  · exact h2
  · intro j hj c hc
    rw [List.getElem?_set_ne (by omega)] at hc
    exact h3 j hj c hc

theorem mem_entries {t : HashTable K V} {cell : K × V} :
    cell ∈ entries t ↔
      ∃ (i : Nat) (chain : List (K × V)), t.hash_table_[i]? = some chain ∧ cell ∈ chain := by
  simp only [entries, List.mem_flatten]
  constructor
  · rintro ⟨chain, hm, hc⟩
    obtain ⟨i, hi⟩ := List.getElem?_of_mem hm
    exact ⟨i, chain, hi, hc⟩
  · rintro ⟨i, chain, hi, hc⟩
    exact ⟨chain, List.getElem?_mem hi, hc⟩

end Lemmas

/-! ## The claims -/

section Claims

variable {K V : Type}

/-- C1: round trip of index-assign.  On every table reachable from the default constructor, for
a key `k` the key equality accepts as equal to itself and every value `v`, the statement
`t[k] = v` returns, afterwards `at(k)` returns `v` and `find(k)` does not compare equal to
`end()`; a rehash triggered by the call and several entries with key `k` are covered. -/
theorem index_assign_round_trip [Zero V] [DecidableEq V] (hash_ : K → Nat)
    (key_equal_ : K → K → Bool) (t : HashTable K V) (hr : Reachable hash_ key_equal_ t) (k : K) (v : V)
    (hrefl : key_equal_ k k = true) :
    ∃ t', index_assign hash_ key_equal_ t k v = .ok t' ∧
      at_ hash_ key_equal_ t' k = .ok v ∧
      ∃ it e, find hash_ key_equal_ t' k = .ok it ∧ end_ t' = .ok e ∧ it.ne e = true := by
  obtain ⟨t1, chain, hg, h1, -, hc⟩ := prologue hr.wf k
  have he := index_assign_eq key_equal_ hg h1 k v hc
  cases hs : scan (fun cell => key_equal_ k cell.1) chain with
  | none =>
    rw [hs] at he
    have hw := h1.push_front (k, v) hc
    have hc' := getElem?_set_same (b := (k, v) :: chain) hc
    have hs' : scan (fun c => key_equal_ k c.1) ((k, v) :: chain) = some (0, (k, v)) := by
      simp [scan, hrefl]
    obtain ⟨a, it, e, f1, f2, f3, -⟩ := lookup_hit key_equal_ hw k hc' hs'
    exact ⟨_, he, a, it, e, f1, f2, f3⟩
  | some r =>
    obtain ⟨pos, cell⟩ := r
    rw [hs] at he
    have hw := h1.set_value hc (scan_eq_some hs).1 v
    have hc' := getElem?_set_same (b := chain.set pos (cell.1, v)) hc
    obtain ⟨a, it, e, f1, f2, f3, -⟩ :=
      lookup_hit key_equal_ hw k hc' (scan_set_value key_equal_ k hs v)
    exact ⟨_, he, a, it, e, f1, f2, f3⟩

/-- Witness of C1: the default-constructed table over natural-number keys, `t[5] = 7`. -/
theorem index_assign_round_trip_witness :
    ∃ t', index_assign id (fun a b : Nat => a == b) (HashTable.new : HashTable Nat Nat) 5 7
        = .ok t' ∧
      at_ id (fun a b : Nat => a == b) t' 5 = .ok 7 ∧
      ∃ it e, find id (fun a b : Nat => a == b) t' 5 = .ok it ∧ end_ t' = .ok e ∧
        it.ne e = true :=
  index_assign_round_trip id (fun a b : Nat => a == b) HashTable.new Reachable.init 5 7
    (by decide)

/-- C2: result and failure condition of `at`.  With a hasher consistent with the key equality,
on every reachable table `at(k)` throws `std::out_of_range` exactly when no entry of any bucket
has a key equal to `k`; when some entry has, `at(k)` returns the value of the first key-equal
entry of the chain of bucket `hash_(k) % bucket_count_`; and `at(k)` throws on the
default-constructed table. -/
theorem at_fails_iff_absent [Zero V] [DecidableEq V] (hash_ : K → Nat) (key_equal_ : K → K → Bool)
    (hcons : ∀ a b, key_equal_ a b = true → hash_ a = hash_ b)
    (t : HashTable K V) (hr : Reachable hash_ key_equal_ t) (k : K) :
    (at_ hash_ key_equal_ t k = .error .out_of_range ↔
      ∀ cell ∈ entries t, key_equal_ k cell.1 = false) ∧
    ((∃ cell ∈ entries t, key_equal_ k cell.1 = true) →
      ∃ (chain : List (K × V)) (pos : Nat) (cell : K × V),
        t.hash_table_[hash_ k % t.bucket_count_]? = some chain ∧
        chain[pos]? = some cell ∧ key_equal_ k cell.1 = true ∧
        (∀ j, j < pos → ∀ c : K × V, chain[j]? = some c → key_equal_ k c.1 = false) ∧
        at_ hash_ key_equal_ t k = .ok cell.2) ∧
    at_ hash_ key_equal_ (HashTable.new : HashTable K V) k = .error .out_of_range := by
  have hw := hr.wf
  obtain ⟨chain, hc, -⟩ := hw.chain k
  -- an entry with a key equal to `k` anywhere in the table lies in the chain `at` scans
  have hin : ∀ cell ∈ entries t, key_equal_ k cell.1 = true → cell ∈ chain := by
    intro cell hm hk
    obtain ⟨i, c, hi, hmc⟩ := mem_entries.mp hm
    have hpl := hw.placed i c hi cell hmc
    rw [← hcons k cell.1 hk] at hpl
    rw [hpl, hi] at hc
    cases hc
    exact hmc
  have hsub : ∀ cell ∈ chain, cell ∈ entries t :=
    fun cell hm => mem_entries.mpr ⟨_, chain, hc, hm⟩
  refine ⟨?_, ?_, ?_⟩
  · rw [at_eq key_equal_ hw k hc]
    cases hs : scan (fun c => key_equal_ k c.1) chain with
    | none =>
      simp only [true_iff]
      intro cell hm
      by_contra hne
      have hk : key_equal_ k cell.1 = true := by simpa using hne
      have := scan_eq_none.mp hs cell (hin cell hm hk)
      simp [hk] at this
    | some r =>
      obtain ⟨pos, cell⟩ := r
      obtain ⟨h1, h2, -⟩ := scan_eq_some hs
      simp only [reduceCtorEq, false_iff, not_forall]
      exact ⟨cell, hsub cell (List.getElem?_mem h1), by simpa using h2⟩
  · rintro ⟨cell, hm, hk⟩
    cases hs : scan (fun c => key_equal_ k c.1) chain with
    | none =>
      have := scan_eq_none.mp hs cell (hin cell hm hk)
      simp [hk] at this
    | some r =>
      obtain ⟨pos, c⟩ := r
      obtain ⟨h1, h2, h3⟩ := scan_eq_some hs
      exact ⟨chain, pos, c, hc, h1, h2, h3, (lookup_hit key_equal_ hw k hc hs).1⟩
  · obtain ⟨c0, hc0, -⟩ := (WF.new (V := V) hash_).chain k
    have hnil : c0 = [] := by
      have := List.getElem?_mem hc0
      exact List.eq_of_mem_replicate this
    subst hnil
    exact (lookup_miss key_equal_ (WF.new hash_) k hc0 rfl).1

/-- Witness of C2: the default-constructed table over natural-number keys. -/
theorem at_fails_iff_absent_witness :
    (at_ id (fun a b : Nat => a == b) (HashTable.new : HashTable Nat Nat) 3
        = .error .out_of_range ↔
      ∀ cell ∈ entries (HashTable.new : HashTable Nat Nat), (3 == cell.1) = false) ∧
    ((∃ cell ∈ entries (HashTable.new : HashTable Nat Nat), (3 == cell.1) = true) →
      ∃ (chain : List (Nat × Nat)) (pos : Nat) (cell : Nat × Nat),
        (HashTable.new : HashTable Nat Nat).hash_table_[
          id 3 % (HashTable.new : HashTable Nat Nat).bucket_count_]? = some chain ∧
        chain[pos]? = some cell ∧ (3 == cell.1) = true ∧
        (∀ j, j < pos → ∀ c : Nat × Nat, chain[j]? = some c → (3 == c.1) = false) ∧
        at_ id (fun a b : Nat => a == b) (HashTable.new : HashTable Nat Nat) 3 = .ok cell.2) ∧
    at_ id (fun a b : Nat => a == b) (HashTable.new : HashTable Nat Nat) 3
      = .error .out_of_range :=
  at_fails_iff_absent id (fun a b : Nat => a == b) (fun a b h => by simpa using h)
    HashTable.new Reachable.init 3

/-- C3: find/at agreement.  On every reachable table `find(k)` and `end()` return, `find(k)`
compares equal to `end()` under `operator!=` exactly when `at(k)` throws `std::out_of_range`,
and when it does not compare equal, dereferencing it gives a pair whose key is equal to `k`
and whose value is the one `at(k)` returns. -/
theorem find_at_agreement [Zero V] [DecidableEq V] (hash_ : K → Nat) (key_equal_ : K → K → Bool)
    (t : HashTable K V) (hr : Reachable hash_ key_equal_ t) (k : K) :
    ∃ it e, find hash_ key_equal_ t k = .ok it ∧ end_ t = .ok e ∧
      (it.ne e = false ↔ at_ hash_ key_equal_ t k = .error .out_of_range) ∧
      (it.ne e = true → ∃ cell, deref t it = .ok cell ∧ key_equal_ k cell.1 = true ∧
        at_ hash_ key_equal_ t k = .ok cell.2) := by
  have hw := hr.wf
  obtain ⟨chain, hc, -⟩ := hw.chain k
  cases hs : scan (fun c => key_equal_ k c.1) chain with
  | none =>
    obtain ⟨a, it, e, f1, f2, f3⟩ := lookup_miss key_equal_ hw k hc hs
    exact ⟨it, e, f1, f2, by simp [f3, a], by simp [f3]⟩
  | some r =>
    obtain ⟨pos, cell⟩ := r
    obtain ⟨a, it, e, f1, f2, f3, f4⟩ := lookup_hit key_equal_ hw k hc hs
    exact ⟨it, e, f1, f2, by simp [f3, a], fun _ => ⟨cell, f4, (scan_eq_some hs).2.1, a⟩⟩

/-- Witness of C3: the default-constructed table over natural-number keys. -/
theorem find_at_agreement_witness :
    ∃ it e, find id (fun a b : Nat => a == b) (HashTable.new : HashTable Nat Nat) 3 = .ok it ∧
      end_ (HashTable.new : HashTable Nat Nat) = .ok e ∧
      (it.ne e = false ↔
        at_ id (fun a b : Nat => a == b) (HashTable.new : HashTable Nat Nat) 3
          = .error .out_of_range) ∧
      (it.ne e = true → ∃ cell, deref (HashTable.new : HashTable Nat Nat) it = .ok cell ∧
        (3 == cell.1) = true ∧
        at_ id (fun a b : Nat => a == b) (HashTable.new : HashTable Nat Nat) 3 = .ok cell.2) :=
  find_at_agreement id (fun a b : Nat => a == b) HashTable.new Reachable.init 3

/-- C4: construction from a sequence.  The constructor never sizes the bucket array, so for
every non-empty sequence its first `operator[]` subscripts the empty vector (undefined
behaviour) instead of storing the pair, and for the empty sequence it returns a table with
1000 as bucket count and no bucket, on which `at(k)` subscripts the empty vector for every
key `k`. -/
theorem from_vector_subscripts_empty_array [Zero V] (hash_ : K → Nat) (key_equal_ : K → K → Bool) :
    (∀ (kv : K × V) (rest : List (K × V)),
      from_vector hash_ key_equal_ (kv :: rest) = .error .undefined_behaviour) ∧
    (∃ t : HashTable K V, from_vector hash_ key_equal_ [] = .ok t ∧
      t.hash_table_ = [] ∧ t.bucket_count_ = 1000 ∧
      ∀ k, at_ hash_ key_equal_ t k = .error .undefined_behaviour) := by
  constructor
  · intro kv rest
    have h1 : index_assign hash_ key_equal_
        ({ hash_table_ := [], bucket_count_ := 1000, size_ := 0 } : HashTable K V) kv.1 kv.2
          = .error .undefined_behaviour := by
      simp [index_assign, operator_index, grow, slot, bucket, bind, Except.bind]
    simp [from_vector, List.foldlM_cons, h1, bind, Except.bind]
  · refine ⟨{ hash_table_ := [], bucket_count_ := 1000, size_ := 0 }, rfl, rfl, rfl, ?_⟩
    intro k
    simp [at_, slot, bucket, bind, Except.bind]

/-- C5: postcondition of `insert`.  On every reachable table `insert((k, v))` returns.  With
`t1` the table after `++size_` and the rehash it may trigger and `chain` the chain of bucket
`hash_(k) % bucket_count_` of `t1`: the flag is `false` exactly when `chain` holds an entry with
key equal to `k` and value equal to `v`; then the table is `t1` and the cursor dereferences to
such an entry of `chain`; otherwise the flag is `true`, the table is `t1` with `(k, v)`
prepended to `chain`, and the cursor dereferences to `(k, v)`.  `emplace(k, v)` is the same
call. -/
theorem insert_postcondition [Zero V] [DecidableEq V] (hash_ : K → Nat) (key_equal_ : K → K → Bool)
    (t : HashTable K V) (hr : Reachable hash_ key_equal_ t) (k : K) (v : V) :
    ∃ (t1 : HashTable K V) (chain : List (K × V)) (t' : HashTable K V)
      (it : HashTableIterator) (inserted : Bool),
      grow hash_ t = .ok t1 ∧
      t1.hash_table_[hash_ k % t1.bucket_count_]? = some chain ∧
      insert hash_ key_equal_ t (k, v) = .ok (t', (it, inserted)) ∧
      (inserted = false ↔ ∃ cell ∈ chain, key_equal_ k cell.1 = true ∧ cell.2 = v) ∧
      (inserted = false → t' = t1 ∧
        ∃ cell ∈ chain, key_equal_ k cell.1 = true ∧ cell.2 = v ∧ deref t' it = .ok cell) ∧
      (inserted = true → t'.bucket_count_ = t1.bucket_count_ ∧ t'.size_ = t1.size_ ∧
        t'.hash_table_ = t1.hash_table_.set (hash_ k % t1.bucket_count_) ((k, v) :: chain) ∧
        t'.hash_table_[hash_ k % t'.bucket_count_]? = some ((k, v) :: chain) ∧
        deref t' it = .ok (k, v)) ∧
      emplace hash_ key_equal_ t k v = insert hash_ key_equal_ t (k, v) := by
  obtain ⟨t1, chain, hg, h1, -, hc⟩ := prologue hr.wf k
  have he := insert_eq key_equal_ hg h1 (k, v) hc
  cases hs : scan (fun cell => key_equal_ k cell.1 && decide (cell.2 = v)) chain with
  | none =>
    simp only [hs] at he
    have hall := scan_eq_none.mp hs
    refine ⟨t1, chain, _, _, true, hg, hc, he, ?_, ?_, ?_, rfl⟩
    · simp only [Bool.true_eq_false, false_iff, not_exists, not_and]
      intro cell hm hk hv
      have := hall cell hm
      simp [hk, hv] at this
    · intro hf; cases hf
    · intro _
      have hc' := getElem?_set_same (b := (k, v) :: chain) hc
      exact ⟨rfl, rfl, rfl, hc', deref_node hc' (by simp)⟩
  | some r =>
    obtain ⟨pos, cell⟩ := r
    simp only [hs] at he
    obtain ⟨hp, ht, -⟩ := scan_eq_some hs
    have hk : key_equal_ k cell.1 = true ∧ cell.2 = v := by simpa using ht
    have hm : cell ∈ chain := List.getElem?_mem hp
    refine ⟨t1, chain, _, _, false, hg, hc, he, ?_, ?_, ?_, rfl⟩
    · simp only [true_iff]
      exact ⟨cell, hm, hk.1, hk.2⟩
    · intro _
      exact ⟨rfl, cell, hm, hk.1, hk.2, deref_node hc hp⟩
    · intro hf; cases hf

/-- Witness of C5: `insert((5, 7))` on the default-constructed table over natural numbers. -/
theorem insert_postcondition_witness :
    ∃ (t1 : HashTable Nat Nat) (chain : List (Nat × Nat)) (t' : HashTable Nat Nat)
      (it : HashTableIterator) (inserted : Bool),
      grow id (HashTable.new : HashTable Nat Nat) = .ok t1 ∧
      t1.hash_table_[id 5 % t1.bucket_count_]? = some chain ∧
      insert id (fun a b : Nat => a == b) (HashTable.new : HashTable Nat Nat) (5, 7)
        = .ok (t', (it, inserted)) ∧
      (inserted = false ↔ ∃ cell ∈ chain, (5 == cell.1) = true ∧ cell.2 = 7) ∧
      (inserted = false → t' = t1 ∧
        ∃ cell ∈ chain, (5 == cell.1) = true ∧ cell.2 = 7 ∧ deref t' it = .ok cell) ∧
      (inserted = true → t'.bucket_count_ = t1.bucket_count_ ∧ t'.size_ = t1.size_ ∧
        t'.hash_table_ = t1.hash_table_.set (id 5 % t1.bucket_count_) ((5, 7) :: chain) ∧
        t'.hash_table_[id 5 % t'.bucket_count_]? = some ((5, 7) :: chain) ∧
        deref t' it = .ok (5, 7)) ∧
      emplace id (fun a b : Nat => a == b) (HashTable.new : HashTable Nat Nat) 5 7
        = insert id (fun a b : Nat => a == b) (HashTable.new : HashTable Nat Nat) (5, 7) :=
  insert_postcondition id (fun a b : Nat => a == b) HashTable.new Reachable.init 5 7

/-- Below the growth threshold the opening of `operator[]` and `insert` only counts. -/
theorem grow_of_le (hash_ : K → Nat) (t : HashTable K V) (h : t.size_ + 1 ≤ t.bucket_count_) :
    grow hash_ t = .ok { t with size_ := t.size_ + 1 } := by
  have : ¬ t.size_ + 1 > t.bucket_count_ := by omega
  simp [grow, this]

/-- Below the growth threshold, `insert` of a pair its chain does not hold prepends the pair. -/
theorem insert_absent_below [DecidableEq V] {hash_ : K → Nat} (key_equal_ : K → K → Bool)
    {t : HashTable K V} (h : WF hash_ t) (hle : t.size_ + 1 ≤ t.bucket_count_) (kvp : K × V)
    {chain : List (K × V)} (hc : t.hash_table_[hash_ kvp.1 % t.bucket_count_]? = some chain)
    (hs : scan (fun cell => key_equal_ kvp.1 cell.1 && decide (cell.2 = kvp.2)) chain = none) :
    ∃ t' it, insert hash_ key_equal_ t kvp = .ok (t', (it, true)) ∧ WF hash_ t' ∧
      t'.size_ = t.size_ + 1 ∧ t'.bucket_count_ = t.bucket_count_ ∧
      t'.hash_table_[hash_ kvp.1 % t'.bucket_count_]? = some (kvp :: chain) := by
  have w : WF hash_ ({ t with size_ := t.size_ + 1 } : HashTable K V) :=
    ⟨h.length_eq, h.pos, h.placed⟩
  have e := insert_eq key_equal_ (grow_of_le hash_ t hle) w kvp hc
  rw [hs] at e
  exact ⟨_, _, e, w.push_front kvp hc, rfl, rfl, getElem?_set_same hc⟩

/-- Below the growth threshold, `insert` of a pair its chain holds leaves the chains alone. -/
theorem insert_present_below [DecidableEq V] {hash_ : K → Nat} (key_equal_ : K → K → Bool)
    {t : HashTable K V} (h : WF hash_ t) (hle : t.size_ + 1 ≤ t.bucket_count_) (kvp : K × V)
    {chain : List (K × V)} (hc : t.hash_table_[hash_ kvp.1 % t.bucket_count_]? = some chain)
    {r : Nat × (K × V)}
    (hs : scan (fun cell => key_equal_ kvp.1 cell.1 && decide (cell.2 = kvp.2)) chain = some r) :
    ∃ t' it, insert hash_ key_equal_ t kvp = .ok (t', (it, false)) ∧ WF hash_ t' ∧
      t'.size_ = t.size_ + 1 ∧ t'.bucket_count_ = t.bucket_count_ ∧
      t'.hash_table_[hash_ kvp.1 % t'.bucket_count_]? = some chain := by
  have w : WF hash_ ({ t with size_ := t.size_ + 1 } : HashTable K V) :=
    ⟨h.length_eq, h.pos, h.placed⟩
  have e := insert_eq key_equal_ (grow_of_le hash_ t hle) w kvp hc
  rw [hs] at e
  exact ⟨_, _, e, w, rfl, rfl, hc⟩

/-- C6: `insert` keys on the pair and never overwrites.  For a key `k` equal to itself and
values `v1 ≠ v2`, on the default-constructed table `insert((k, v1))` reports `true`, a second
`insert((k, v1))` reports `false` and `insert((k, v2))` reports `true`; afterwards the chain of
bucket `hash_(k) % bucket_count_` is `(k, v2)` followed by `(k, v1)`, `at(k)` returns `v2` and
`find(k)` is not `end()` and dereferences to `(k, v2)`. -/
theorem insert_never_overwrites [DecidableEq V] (hash_ : K → Nat) (key_equal_ : K → K → Bool)
    (k : K) (v1 v2 : V) (hrefl : key_equal_ k k = true) (hne : v1 ≠ v2) :
    ∃ (t1 t2 t3 : HashTable K V) (it1 it2 it3 : HashTableIterator),
      insert hash_ key_equal_ HashTable.new (k, v1) = .ok (t1, (it1, true)) ∧
      insert hash_ key_equal_ t1 (k, v1) = .ok (t2, (it2, false)) ∧
      insert hash_ key_equal_ t2 (k, v2) = .ok (t3, (it3, true)) ∧
      t3.hash_table_[hash_ k % t3.bucket_count_]? = some [(k, v2), (k, v1)] ∧
      at_ hash_ key_equal_ t3 k = .ok v2 ∧
      ∃ it e, find hash_ key_equal_ t3 k = .ok it ∧ end_ t3 = .ok e ∧ it.ne e = true ∧
        deref t3 it = .ok (k, v2) := by
  have hB : (HashTable.new : HashTable K V).bucket_count_ = 1000 := rfl
  have hN : (HashTable.new : HashTable K V).size_ = 0 := rfl
  have c0 : (HashTable.new : HashTable K V).hash_table_[
      hash_ k % (HashTable.new : HashTable K V).bucket_count_]? = some [] :=
    List.getElem?_replicate_of_lt (Nat.mod_lt _ (Nat.succ_pos 999))
  -- first call: the chain is empty
  obtain ⟨t1, it1, e1, w1, n1, b1, c1⟩ := insert_absent_below key_equal_ (WF.new hash_)
    (by rw [hB, hN]; omega) (k, v1) c0 rfl
  -- second call: the pair is found
  have s1 : scan (fun cell : K × V => key_equal_ (k, v1).1 cell.1 && decide (cell.2 = (k, v1).2))
      [(k, v1)] = some (0, (k, v1)) := by simp [scan, hrefl]
  obtain ⟨t2, it2, e2, w2, n2, b2, c2⟩ := insert_present_below key_equal_ w1
    (by rw [b1, n1, hB, hN]; omega) (k, v1) c1 s1
  -- third call: the key is found with another value
  have hd : decide (v1 = v2) = false := by simpa using hne
  obtain ⟨t3, it3, e3, w3, n3, b3, c3⟩ := insert_absent_below key_equal_ w2
    (by rw [b2, n2, b1, n1, hB, hN]; omega) (k, v2) c2 (by simp [scan, hd])
  have s3 : scan (fun c => key_equal_ k c.1) [(k, v2), (k, v1)] = some (0, (k, v2)) := by
    simp [scan, hrefl]
  obtain ⟨a, it, e, f1, f2, f3, f4⟩ := lookup_hit key_equal_ w3 k c3 s3
  exact ⟨t1, t2, t3, it1, it2, it3, e1, e2, e3, c3, a, it, e, f1, f2, f3, f4⟩

/-- Witness of C6: key 5 with the values 1 and 2 over natural numbers. -/
theorem insert_never_overwrites_witness :
    ∃ (t1 t2 t3 : HashTable Nat Nat) (it1 it2 it3 : HashTableIterator),
      insert id (fun a b : Nat => a == b) HashTable.new (5, 1) = .ok (t1, (it1, true)) ∧
      insert id (fun a b : Nat => a == b) t1 (5, 1) = .ok (t2, (it2, false)) ∧
      insert id (fun a b : Nat => a == b) t2 (5, 2) = .ok (t3, (it3, true)) ∧
      t3.hash_table_[id 5 % t3.bucket_count_]? = some [(5, 2), (5, 1)] ∧
      at_ id (fun a b : Nat => a == b) t3 5 = .ok 2 ∧
      ∃ it e, find id (fun a b : Nat => a == b) t3 5 = .ok it ∧ end_ t3 = .ok e ∧
        it.ne e = true ∧ deref t3 it = .ok (5, 2) :=
  insert_never_overwrites id (fun a b : Nat => a == b) 5 1 2 (by decide) (by decide)

theorem entries_new : entries (HashTable.new : HashTable K V) = [] :=
  List.flatten_replicate_nil

/-- Below the growth threshold, `t[key] = value` with no key-equal entry in the chain prepends
`(key, value)`: one entry more. -/
theorem index_assign_absent_below [Zero V] {hash_ : K → Nat} (key_equal_ : K → K → Bool)
    {t : HashTable K V} (h : WF hash_ t) (hle : t.size_ + 1 ≤ t.bucket_count_) (key : K)
    (value : V) {chain : List (K × V)}
    (hc : t.hash_table_[hash_ key % t.bucket_count_]? = some chain)
    (hs : scan (fun cell => key_equal_ key cell.1) chain = none) :
    ∃ t', index_assign hash_ key_equal_ t key value = .ok t' ∧ WF hash_ t' ∧
      t'.size_ = t.size_ + 1 ∧ t'.bucket_count_ = t.bucket_count_ ∧
      t'.hash_table_[hash_ key % t'.bucket_count_]? = some ((key, value) :: chain) ∧
      (entries t').length = (entries t).length + 1 := by
  have w : WF hash_ ({ t with size_ := t.size_ + 1 } : HashTable K V) :=
    ⟨h.length_eq, h.pos, h.placed⟩
  have e := index_assign_eq key_equal_ (grow_of_le hash_ t hle) w key value hc
  rw [hs] at e
  refine ⟨_, e, w.push_front (key, value) hc, rfl, rfl, getElem?_set_same hc, ?_⟩
  exact (flatten_set_cons hc (key, value)).length_eq

/-- Below the growth threshold, `t[key] = value` with a key-equal entry in the chain overwrites
the value of the first one: no entry more. -/
theorem index_assign_present_below [Zero V] {hash_ : K → Nat} (key_equal_ : K → K → Bool)
    {t : HashTable K V} (h : WF hash_ t) (hle : t.size_ + 1 ≤ t.bucket_count_) (key : K)
    (value : V) {chain : List (K × V)} {pos : Nat} {cell : K × V}
    (hc : t.hash_table_[hash_ key % t.bucket_count_]? = some chain)
    (hs : scan (fun cell => key_equal_ key cell.1) chain = some (pos, cell)) :
    ∃ t', index_assign hash_ key_equal_ t key value = .ok t' ∧ WF hash_ t' ∧
      t'.size_ = t.size_ + 1 ∧ t'.bucket_count_ = t.bucket_count_ ∧
      t'.hash_table_[hash_ key % t'.bucket_count_]? = some (chain.set pos (cell.1, value)) ∧
      (entries t').length = (entries t).length := by
  have w : WF hash_ ({ t with size_ := t.size_ + 1 } : HashTable K V) :=
    ⟨h.length_eq, h.pos, h.placed⟩
  have e := index_assign_eq key_equal_ (grow_of_le hash_ t hle) w key value hc
  rw [hs] at e
  have hp := (scan_eq_some hs).1
  exact ⟨_, e, w.set_value hc hp value, rfl, rfl, getElem?_set_same hc,
    flatten_set_value hc hp value⟩

/-- C7: size accounting.  On the default-constructed table the two statements `t[1] = 5;
t[1] = 7;` return and leave `size()` at 2 while the bucket chains hold one entry: the second
statement finds key 1, adds nothing, and has already counted. -/
theorem size_exceeds_entry_count :
    ∃ t : HashTable Nat Nat,
      run_ops id (fun a b : Nat => a == b) (HashTable.new : HashTable Nat Nat)
        [Op.index_assign 1 5, Op.index_assign 1 7] = .ok t ∧
      size t = 2 ∧ (entries t).length = 1 := by
  have c0 : (HashTable.new : HashTable Nat Nat).hash_table_[
      id 1 % (HashTable.new : HashTable Nat Nat).bucket_count_]? = some [] :=
    List.getElem?_replicate_of_lt (Nat.mod_lt _ (Nat.succ_pos 999))
  have hB : (HashTable.new : HashTable Nat Nat).bucket_count_ = 1000 := rfl
  have hN : (HashTable.new : HashTable Nat Nat).size_ = 0 := rfl
  obtain ⟨t1, e1, w1, n1, b1, c1, l1⟩ := index_assign_absent_below
    (fun a b : Nat => a == b) (WF.new id) (by rw [hB, hN]; omega) 1 5 c0 rfl
  have s1 : scan (fun cell : Nat × Nat => (fun a b : Nat => a == b) 1 cell.1) [(1, 5)]
      = some (0, (1, 5)) := by simp [scan]
  obtain ⟨t2, e2, w2, n2, b2, c2, l2⟩ := index_assign_present_below
    (fun a b : Nat => a == b) w1 (by rw [b1, n1, hB, hN]; omega) 1 7 c1 s1
  refine ⟨t2, ?_, by rw [size, n2, n1, hN], by rw [l2, l1, entries_new]; rfl⟩
  simp only [run_ops, List.foldlM_cons, List.foldlM_nil, Op.run, e1, bind, Except.bind, e2]
  rfl

/-- Every call but `clear` returns on a well-formed table and adds one to `size_`. -/
theorem run_adds [Zero V] [DecidableEq V] {hash_ : K → Nat} (key_equal_ : K → K → Bool)
    {t : HashTable K V} (h : WF hash_ t) (op : Op K V) (ha : op.adds = true) :
    ∃ t', op.run hash_ key_equal_ t = .ok t' ∧ WF hash_ t' ∧ t'.size_ = t.size_ + 1 := by
  cases op with
  | index key =>
    obtain ⟨t1, chain, hg, h1, hs, hc⟩ := prologue h key
    have e := operator_index_eq key_equal_ hg h1 key hc
    cases hsc : scan (fun cell => key_equal_ key cell.1) chain with
    | none =>
      rw [hsc] at e
      exact ⟨_, by simp only [Op.run, e, Except.map], h1.push_front (key, 0) hc, hs⟩
    | some r =>
      rw [hsc] at e
      exact ⟨_, by simp only [Op.run, e, Except.map], h1, hs⟩
  | index_assign key value =>
    obtain ⟨t1, chain, hg, h1, hs, hc⟩ := prologue h key
    have e := index_assign_eq key_equal_ hg h1 key value hc
    cases hsc : scan (fun cell => key_equal_ key cell.1) chain with
    | none =>
      rw [hsc] at e
      exact ⟨_, by simp only [Op.run, e], h1.push_front (key, value) hc, hs⟩
    | some r =>
      obtain ⟨pos, cell⟩ := r
      rw [hsc] at e
      exact ⟨_, by simp only [Op.run, e], h1.set_value hc (scan_eq_some hsc).1 value, hs⟩
  | insert kvp =>
    obtain ⟨t1, chain, hg, h1, hs, hc⟩ := prologue h kvp.1
    have e := insert_eq key_equal_ hg h1 kvp hc
    cases hsc : scan (fun cell => key_equal_ kvp.1 cell.1 && decide (cell.2 = kvp.2)) chain with
    | none =>
      rw [hsc] at e
      exact ⟨_, by simp only [Op.run, e, Except.map], h1.push_front kvp hc, hs⟩
    | some r =>
      rw [hsc] at e
      exact ⟨_, by simp only [Op.run, e, Except.map], h1, hs⟩
  | emplace key value =>
    obtain ⟨t1, chain, hg, h1, hs, hc⟩ := prologue h key
    have e := insert_eq key_equal_ hg h1 (key, value) hc
    cases hsc : scan (fun cell => key_equal_ key cell.1 && decide (cell.2 = value)) chain with
    | none =>
      simp only [hsc] at e
      exact ⟨_, by simp only [Op.run, emplace, e, Except.map], h1.push_front (key, value) hc, hs⟩
    | some r =>
      simp only [hsc] at e
      exact ⟨_, by simp only [Op.run, emplace, e, Except.map], h1, hs⟩
  | clear => simp [Op.adds] at ha

/-- A sequence of calls without `clear` returns and adds its length to `size_`. -/
theorem run_ops_adds [Zero V] [DecidableEq V] {hash_ : K → Nat} (key_equal_ : K → K → Bool)
    (ops : List (Op K V)) (ha : ∀ op ∈ ops, op.adds = true) {t : HashTable K V}
    (h : WF hash_ t) :
    ∃ t', run_ops hash_ key_equal_ t ops = .ok t' ∧ WF hash_ t' ∧
      t'.size_ = t.size_ + ops.length := by
  induction ops generalizing t with
  | nil => exact ⟨t, rfl, h, rfl⟩
  | cons op rest ih =>
    obtain ⟨t1, e1, w1, s1⟩ := run_adds key_equal_ h op (ha op (List.mem_cons_self _ _))
    obtain ⟨t2, e2, w2, s2⟩ := ih (fun o ho => ha o (List.mem_cons_of_mem _ ho)) w1
    refine ⟨t2, ?_, w2, by rw [s2, s1, List.length_cons]; omega⟩
    simp only [run_ops, List.foldlM_cons, e1, bind, Except.bind]
    exact e2

/-- C8: unconditional size increment.  On every reachable table each call of `insert`,
`emplace`, `operator[]` and `t[k] = v` returns and leaves `size()` one larger, whatever the
table already holds; hence any `n` such calls on the default-constructed table or on a
just-cleared table leave `size() == n`, and `empty()` is true exactly when `n == 0`. -/
theorem size_counts_calls [Zero V] [DecidableEq V] (hash_ : K → Nat) (key_equal_ : K → K → Bool)
    (t : HashTable K V) (hr : Reachable hash_ key_equal_ t) :
    (∀ kvp, ∃ t' r, insert hash_ key_equal_ t kvp = .ok (t', r) ∧ size t' = size t + 1) ∧
    (∀ k v, ∃ t' r, emplace hash_ key_equal_ t k v = .ok (t', r) ∧ size t' = size t + 1) ∧
    (∀ k, ∃ t' ref, operator_index hash_ key_equal_ t k = .ok (t', ref) ∧
      size t' = size t + 1) ∧
    (∀ k v, ∃ t', index_assign hash_ key_equal_ t k v = .ok t' ∧ size t' = size t + 1) ∧
    (∀ ops : List (Op K V), (∀ op ∈ ops, op.adds = true) →
      (∃ t', run_ops hash_ key_equal_ HashTable.new ops = .ok t' ∧ size t' = ops.length ∧
        (empty t' = true ↔ ops.length = 0)) ∧
      (∃ t', run_ops hash_ key_equal_ (clear t) ops = .ok t' ∧ size t' = ops.length ∧
        (empty t' = true ↔ ops.length = 0))) := by
  have hw := hr.wf
  refine ⟨?_, ?_, ?_, ?_, ?_⟩
  · intro kvp
    obtain ⟨t', e, -, hs⟩ := run_adds key_equal_ hw (Op.insert kvp) rfl
    obtain ⟨r, e⟩ := map_fst_ok e
    exact ⟨t', r, e, hs⟩
  · intro k v
    obtain ⟨t', e, -, hs⟩ := run_adds key_equal_ hw (Op.emplace k v) rfl
    obtain ⟨r, e⟩ := map_fst_ok e
    exact ⟨t', r, e, hs⟩
  · intro k
    obtain ⟨t', e, -, hs⟩ := run_adds key_equal_ hw (Op.index k) rfl
    obtain ⟨r, e⟩ := map_fst_ok e
    exact ⟨t', r, e, hs⟩
  · intro k v
    obtain ⟨t', e, -, hs⟩ := run_adds key_equal_ hw (Op.index_assign k v) rfl
    exact ⟨t', e, hs⟩
  · intro ops ha
    have key : ∀ t0 : HashTable K V, WF hash_ t0 → t0.size_ = 0 →
        ∃ t', run_ops hash_ key_equal_ t0 ops = .ok t' ∧ size t' = ops.length ∧
          (empty t' = true ↔ ops.length = 0) := by
      intro t0 w0 n0
      obtain ⟨t', e, -, hs⟩ := run_ops_adds key_equal_ ops ha w0
      rw [n0, Nat.zero_add] at hs
      exact ⟨t', e, hs, by simp [empty, hs]⟩
    exact ⟨key _ (WF.new hash_) rfl, key _ (WF.clear hash_ t) rfl⟩

/-- Witness of C8: the default-constructed table over natural numbers. -/
theorem size_counts_calls_witness :
    (∀ kvp, ∃ t' r, insert id (fun a b : Nat => a == b) (HashTable.new : HashTable Nat Nat) kvp
      = .ok (t', r) ∧ size t' = size (HashTable.new : HashTable Nat Nat) + 1) ∧
    (∀ k v, ∃ t' r, emplace id (fun a b : Nat => a == b) (HashTable.new : HashTable Nat Nat) k v
      = .ok (t', r) ∧ size t' = size (HashTable.new : HashTable Nat Nat) + 1) ∧
    (∀ k, ∃ t' ref,
      operator_index id (fun a b : Nat => a == b) (HashTable.new : HashTable Nat Nat) k
        = .ok (t', ref) ∧ size t' = size (HashTable.new : HashTable Nat Nat) + 1) ∧
    (∀ k v, ∃ t',
      index_assign id (fun a b : Nat => a == b) (HashTable.new : HashTable Nat Nat) k v
        = .ok t' ∧ size t' = size (HashTable.new : HashTable Nat Nat) + 1) ∧
    (∀ ops : List (Op Nat Nat), (∀ op ∈ ops, op.adds = true) →
      (∃ t', run_ops id (fun a b : Nat => a == b) HashTable.new ops = .ok t' ∧
        size t' = ops.length ∧ (empty t' = true ↔ ops.length = 0)) ∧
      (∃ t', run_ops id (fun a b : Nat => a == b)
          (clear (HashTable.new : HashTable Nat Nat)) ops = .ok t' ∧
        size t' = ops.length ∧ (empty t' = true ↔ ops.length = 0))) :=
  size_counts_calls id (fun a b : Nat => a == b) HashTable.new Reachable.init

/-- C9: placement law.  In every reachable table every entry stored in the chain of bucket `i`
has a key `k` with `hash_(k) % bucket_count_ == i`. -/
theorem placement_law [Zero V] [DecidableEq V] (hash_ : K → Nat) (key_equal_ : K → K → Bool)
    (t : HashTable K V) (hr : Reachable hash_ key_equal_ t) (i : Nat) (chain : List (K × V))
    (hc : t.hash_table_[i]? = some chain) (cell : K × V) (hm : cell ∈ chain) :
    hash_ cell.1 % t.bucket_count_ = i :=
  hr.wf.placed i chain hc cell hm

/-- Witness of C9: the table after `insert((1005, 7))` on the default-constructed table, whose
bucket 5 holds `(1005, 7)`. -/
theorem placement_law_witness :
    ∃ t : HashTable Nat Nat, Reachable id (fun a b : Nat => a == b) t ∧
      t.hash_table_[5]? = some [(1005, 7)] ∧ (1005, 7) ∈ [((1005 : Nat), (7 : Nat))] ∧
      id (1005, 7).1 % t.bucket_count_ = 5 := by
  have c0 : (HashTable.new : HashTable Nat Nat).hash_table_[
      id (1005, 7).1 % (HashTable.new : HashTable Nat Nat).bucket_count_]? = some [] :=
    List.getElem?_replicate_of_lt (Nat.mod_lt _ (Nat.succ_pos 999))
  obtain ⟨t, it, e, -, -, b, c⟩ := insert_absent_below (fun a b : Nat => a == b) (WF.new id)
    (Nat.succ_le_succ (Nat.zero_le 999)) ((1005 : Nat), (7 : Nat)) c0 rfl
  have hr : Reachable id (fun a b : Nat => a == b) t :=
    Reachable.step (Op.insert (1005, 7)) Reachable.init (by simp only [Op.run, e, Except.map])
  have hB : t.bucket_count_ = 1000 := b
  have hc : t.hash_table_[5]? = some [(1005, 7)] := by
    have : id ((1005 : Nat), (7 : Nat)).1 % t.bucket_count_ = 5 := by rw [hB]; rfl
    rw [this] at c
    exact c
  have hm : (1005, 7) ∈ [((1005 : Nat), (7 : Nat))] := List.mem_singleton.mpr rfl
  exact ⟨t, hr, hc, hm,
    placement_law id (fun a b : Nat => a == b) t hr 5 [(1005, 7)] hc (1005, 7) hm⟩

/-- C10: `Rehash` preserves entries.  On every table with at least one bucket `Rehash` returns,
the bucket count becomes exactly twice the old one, the bucket array has that many chains,
`size()` is unchanged, and the entries over all buckets after the call are a permutation of the
entries before it (the same multiset). -/
theorem rehash_preserves_entries (hash_ : K → Nat) (t : HashTable K V)
    (hB : 0 < t.bucket_count_) :
    ∃ t', Rehash hash_ t = .ok t' ∧ t'.bucket_count_ = 2 * t.bucket_count_ ∧
      t'.hash_table_.length = 2 * t.bucket_count_ ∧ size t' = size t ∧
      (entries t').Perm (entries t) ∧
      (Multiset.ofList (entries t') = Multiset.ofList (entries t)) := by
  obtain ⟨t', e, b, l, sz, -, q⟩ := Rehash_spec hash_ t hB
  exact ⟨t', e, b, l, sz, q, Multiset.coe_eq_coe.mpr q⟩

/-- Witness of C10: one bucket holding the keys 1 and 3, spread over two buckets. -/
theorem rehash_preserves_entries_witness :
    0 < (⟨[[(1, 2), (3, 4)]], 1, 2⟩ : HashTable Nat Nat).bucket_count_ ∧
    ∃ t', Rehash id (⟨[[(1, 2), (3, 4)]], 1, 2⟩ : HashTable Nat Nat) = .ok t' ∧
      t'.bucket_count_ = 2 * (⟨[[(1, 2), (3, 4)]], 1, 2⟩ : HashTable Nat Nat).bucket_count_ ∧
      t'.hash_table_.length
        = 2 * (⟨[[(1, 2), (3, 4)]], 1, 2⟩ : HashTable Nat Nat).bucket_count_ ∧
      size t' = size (⟨[[(1, 2), (3, 4)]], 1, 2⟩ : HashTable Nat Nat) ∧
      (entries t').Perm (entries (⟨[[(1, 2), (3, 4)]], 1, 2⟩ : HashTable Nat Nat)) ∧
      (Multiset.ofList (entries t')
        = Multiset.ofList (entries (⟨[[(1, 2), (3, 4)]], 1, 2⟩ : HashTable Nat Nat))) :=
  ⟨by decide, rehash_preserves_entries id ⟨[[(1, 2), (3, 4)]], 1, 2⟩ (by decide)⟩

/-! ## One call, seen from the table its opening leaves -/

theorem run_adds_touched [Zero V] [DecidableEq V] {hash_ : K → Nat} (key_equal_ : K → K → Bool)
    {t : HashTable K V} (h : WF hash_ t) (op : Op K V) (ha : op.adds = true) :
    ∃ t1 t', grow hash_ t = .ok t1 ∧ WF hash_ t1 ∧ t1.size_ = t.size_ + 1 ∧
      (entries t1).Perm (entries t) ∧
      (t.size_ + 1 ≤ t.bucket_count_ → t1.bucket_count_ = t.bucket_count_) ∧
      (t.bucket_count_ < t.size_ + 1 → t1.bucket_count_ = 2 * t.bucket_count_) ∧
      op.run hash_ key_equal_ t = .ok t' ∧ WF hash_ t' ∧ Touched t1 t' := by
  obtain ⟨t1, hg, h1, hs, hp, hle, hgt⟩ := grow_spec h
  have hle' : t.size_ + 1 ≤ t.bucket_count_ → t1.bucket_count_ = t.bucket_count_ := by
    intro hh
    rw [hle hh]
  have key : ∀ t', op.run hash_ key_equal_ t = .ok t' → Touched t1 t' →
      ∃ t1 t', grow hash_ t = .ok t1 ∧ WF hash_ t1 ∧ t1.size_ = t.size_ + 1 ∧
        (entries t1).Perm (entries t) ∧
        (t.size_ + 1 ≤ t.bucket_count_ → t1.bucket_count_ = t.bucket_count_) ∧
        (t.bucket_count_ < t.size_ + 1 → t1.bucket_count_ = 2 * t.bucket_count_) ∧
        op.run hash_ key_equal_ t = .ok t' ∧ WF hash_ t' ∧ Touched t1 t' :=
    fun t' e ht => ⟨t1, t', hg, h1, hs, hp, hle', hgt, e, h.run op e, ht⟩
  cases op with
  | index key0 =>
    obtain ⟨chain, hc, -⟩ := h1.chain key0
    have e := operator_index_eq key_equal_ hg h1 key0 hc
    cases hsc : scan (fun cell => key_equal_ key0 cell.1) chain with
    | none =>
      simp only [hsc] at e
      exact key _ (congrArg (Except.map Prod.fst) e)
        ⟨rfl, rfl, Or.inr (Or.inl ⟨_, chain, (key0, 0), hc, rfl⟩)⟩
    | some r =>
      simp only [hsc] at e
      exact key _ (congrArg (Except.map Prod.fst) e) ⟨rfl, rfl, Or.inl rfl⟩
  | index_assign key0 value =>
    obtain ⟨chain, hc, -⟩ := h1.chain key0
    have e := index_assign_eq key_equal_ hg h1 key0 value hc
    cases hsc : scan (fun cell => key_equal_ key0 cell.1) chain with
    | none =>
      simp only [hsc] at e
      exact key _ e
        ⟨rfl, rfl, Or.inr (Or.inl ⟨_, chain, (key0, value), hc, rfl⟩)⟩
    | some r =>
      obtain ⟨pos, cell⟩ := r
      simp only [hsc] at e
      exact key _ e
        ⟨rfl, rfl, Or.inr (Or.inr ⟨_, chain, pos, cell, value, hc, (scan_eq_some hsc).1, rfl⟩)⟩
  | insert kvp =>
    obtain ⟨chain, hc, -⟩ := h1.chain kvp.1
    have e := insert_eq key_equal_ hg h1 kvp hc
    cases hsc : scan (fun cell => key_equal_ kvp.1 cell.1 && decide (cell.2 = kvp.2)) chain with
    | none =>
      simp only [hsc] at e
      exact key _ (congrArg (Except.map Prod.fst) e)
        ⟨rfl, rfl, Or.inr (Or.inl ⟨_, chain, kvp, hc, rfl⟩)⟩
    | some r =>
      simp only [hsc] at e
      exact key _ (congrArg (Except.map Prod.fst) e) ⟨rfl, rfl, Or.inl rfl⟩
  | emplace key0 value =>
    obtain ⟨chain, hc, -⟩ := h1.chain key0
    have e := insert_eq key_equal_ hg h1 (key0, value) hc
    cases hsc : scan (fun cell => key_equal_ key0 cell.1 && decide (cell.2 = value)) chain with
    | none =>
      simp only [hsc] at e
      exact key _ (congrArg (Except.map Prod.fst) e)
        ⟨rfl, rfl, Or.inr (Or.inl ⟨_, chain, (key0, value), hc, rfl⟩)⟩
    | some r =>
      simp only [hsc] at e
      exact key _ (congrArg (Except.map Prod.fst) e) ⟨rfl, rfl, Or.inl rfl⟩
  | clear => simp [Op.adds] at ha

theorem run_ops_append [Zero V] [DecidableEq V] (hash_ : K → Nat) (key_equal_ : K → K → Bool)
    (t : HashTable K V) (ops1 ops2 : List (Op K V)) :
    run_ops hash_ key_equal_ t (ops1 ++ ops2) =
      (run_ops hash_ key_equal_ t ops1 >>= fun t1 => run_ops hash_ key_equal_ t1 ops2) := by
  simp only [run_ops, List.foldlM_append]

/-- A sequence of calls without `clear` that stays within the bucket count never rehashes. -/
theorem run_ops_below [Zero V] [DecidableEq V] {hash_ : K → Nat} (key_equal_ : K → K → Bool)
    (ops : List (Op K V)) (ha : ∀ op ∈ ops, op.adds = true) {t : HashTable K V}
    (h : WF hash_ t) (hle : t.size_ + ops.length ≤ t.bucket_count_) :
    ∃ t', run_ops hash_ key_equal_ t ops = .ok t' ∧ WF hash_ t' ∧
      t'.size_ = t.size_ + ops.length ∧ t'.bucket_count_ = t.bucket_count_ := by
  induction ops generalizing t with
  | nil => exact ⟨t, rfl, h, rfl, rfl⟩
  | cons op rest ih =>
    rw [List.length_cons] at hle
    obtain ⟨t1, t2, -, -, s1, -, b1, -, e, w2, s2, b2, -⟩ :=
      run_adds_touched key_equal_ h op (ha op (List.mem_cons_self _ _))
    have hb : t2.bucket_count_ = t.bucket_count_ := by rw [b2, b1 (by omega)]
    have hs : t2.size_ = t.size_ + 1 := by rw [s2, s1]
    obtain ⟨t3, e3, w3, s3, b3⟩ := ih (fun o ho => ha o (List.mem_cons_of_mem _ ho)) w2
      (by rw [hs, hb]; omega)
    refine ⟨t3, ?_, w3, by rw [s3, hs, List.length_cons]; omega, by rw [b3, hb]⟩
    simp only [run_ops, List.foldlM_cons, e, bind, Except.bind]
    exact e3

/-- C11: growth trigger and factor.  On every reachable table with size `N` and bucket count
`B`, one call of `insert`, `emplace`, `operator[]` or `t[k] = v` returns and leaves the bucket
count at `B` when `N + 1 <= B` and at exactly `2 * B` when `N + 1 > B`; the
default-constructed table still has 1000 buckets after up to 1000 such calls and exactly 2000
after 1001 of them. -/
theorem growth_trigger [Zero V] [DecidableEq V] (hash_ : K → Nat) (key_equal_ : K → K → Bool)
    (t : HashTable K V) (hr : Reachable hash_ key_equal_ t) :
    (∀ op : Op K V, op.adds = true → ∃ t', op.run hash_ key_equal_ t = .ok t' ∧
      (size t + 1 ≤ t.bucket_count_ → t'.bucket_count_ = t.bucket_count_) ∧
      (t.bucket_count_ < size t + 1 → t'.bucket_count_ = 2 * t.bucket_count_)) ∧
    (∀ ops : List (Op K V), (∀ op ∈ ops, op.adds = true) → ops.length ≤ 1000 →
      ∃ t', run_ops hash_ key_equal_ HashTable.new ops = .ok t' ∧ t'.bucket_count_ = 1000) ∧
    (∀ ops : List (Op K V), (∀ op ∈ ops, op.adds = true) → ops.length = 1001 →
      ∃ t', run_ops hash_ key_equal_ HashTable.new ops = .ok t' ∧ t'.bucket_count_ = 2000) := by
  have hB : (HashTable.new : HashTable K V).bucket_count_ = 1000 := rfl
  have hN : (HashTable.new : HashTable K V).size_ = 0 := rfl
  have below : ∀ ops : List (Op K V), (∀ op ∈ ops, op.adds = true) → ops.length ≤ 1000 →
      ∃ t', run_ops hash_ key_equal_ HashTable.new ops = .ok t' ∧ WF hash_ t' ∧
        t'.size_ = ops.length ∧ t'.bucket_count_ = 1000 := by
    intro ops ha hl
    obtain ⟨t', e, w, s', b'⟩ := run_ops_below key_equal_ ops ha (WF.new hash_)
      (by rw [hB, hN]; omega)
    exact ⟨t', e, w, by rw [s', hN, Nat.zero_add], by rw [b', hB]⟩
  refine ⟨?_, ?_, ?_⟩
  · intro op ha
    obtain ⟨t1, t', -, -, -, -, b1, b2, e, -, -, b', -⟩ := run_adds_touched key_equal_ hr.wf op ha
    exact ⟨t', e, fun hh => by rw [b', b1 hh], fun hh => by rw [b', b2 hh]⟩
  · intro ops ha hl
    obtain ⟨t', e, -, -, b'⟩ := below ops ha hl
    exact ⟨t', e, b'⟩
  · intro ops ha hl
    have hsplit : ops = ops.take 1000 ++ ops.drop 1000 := (List.take_append_drop 1000 ops).symm
    have hdl : (ops.drop 1000).length = 1 := by rw [List.length_drop, hl]
    obtain ⟨op, hop⟩ := List.length_eq_one.mp hdl
    obtain ⟨t1, e1, w1, s1, b1⟩ := below (ops.take 1000)
      (fun o ho => ha o (List.mem_of_mem_take ho)) (by rw [List.length_take]; omega)
    have hs1 : t1.size_ = 1000 := by rw [s1, List.length_take, hl]; rfl
    have hop_mem : op ∈ ops := by
      apply List.mem_of_mem_drop (n := 1000)
      rw [hop]
      exact List.mem_singleton.mpr rfl
    obtain ⟨t2, t', -, -, -, -, -, b2, e, -, -, b', -⟩ :=
      run_adds_touched key_equal_ w1 op (ha op hop_mem)
    refine ⟨t', ?_, by rw [b', b2 (by rw [b1, hs1]; omega), b1]⟩
    rw [hsplit, run_ops_append, e1, hop]
    simp only [bind, Except.bind, run_ops, List.foldlM_cons, List.foldlM_nil, e]
    rfl

/-- Witness of C11: the default-constructed table over natural numbers. -/
theorem growth_trigger_witness :
    (∀ op : Op Nat Nat, op.adds = true →
      ∃ t', op.run id (fun a b : Nat => a == b) (HashTable.new : HashTable Nat Nat) = .ok t' ∧
      (size (HashTable.new : HashTable Nat Nat) + 1
          ≤ (HashTable.new : HashTable Nat Nat).bucket_count_ →
        t'.bucket_count_ = (HashTable.new : HashTable Nat Nat).bucket_count_) ∧
      ((HashTable.new : HashTable Nat Nat).bucket_count_
          < size (HashTable.new : HashTable Nat Nat) + 1 →
        t'.bucket_count_ = 2 * (HashTable.new : HashTable Nat Nat).bucket_count_)) ∧
    (∀ ops : List (Op Nat Nat), (∀ op ∈ ops, op.adds = true) → ops.length ≤ 1000 →
      ∃ t', run_ops id (fun a b : Nat => a == b) HashTable.new ops = .ok t' ∧
        t'.bucket_count_ = 1000) ∧
    (∀ ops : List (Op Nat Nat), (∀ op ∈ ops, op.adds = true) → ops.length = 1001 →
      ∃ t', run_ops id (fun a b : Nat => a == b) HashTable.new ops = .ok t' ∧
        t'.bucket_count_ = 2000) :=
  growth_trigger id (fun a b : Nat => a == b) HashTable.new Reachable.init

/-! ## Which keys a table holds -/

theorem run_deterministic {α : Type} {x : Except Fault α} {a b : α} (ha : x = .ok a)
    (hb : x = .ok b) : a = b := by
  rw [ha] at hb
  exact Except.ok.inj hb

theorem touched_keys {t1 t' : HashTable K V} (ht : Touched t1 t') :
    ∀ c ∈ entries t1, ∃ c' ∈ entries t', c'.1 = c.1 := by
  intro c hm
  obtain ⟨-, -, h | ⟨i, chain, cell, hc, e⟩ | ⟨i, chain, pos, cell, value, hc, hp, e⟩⟩ := ht
  · exact ⟨c, by rw [entries, h]; exact hm, rfl⟩
  · refine ⟨c, ?_, rfl⟩
    rw [entries, e]
    exact (flatten_set_cons hc cell).mem_iff.mpr (List.mem_cons_of_mem _ hm)
  · obtain ⟨j, cj, hj, hcj⟩ := mem_entries.mp hm
    by_cases hji : j = i
    · subst hji
      rw [hc] at hj
      cases hj
      obtain ⟨q, hq⟩ := List.getElem?_of_mem hcj
      have hi' : t'.hash_table_[j]? = some (chain.set pos (cell.1, value)) := by
        rw [e]
        exact getElem?_set_same hc
      by_cases hqp : q = pos
      · have hcc : cell = c := by
          rw [hqp, hp] at hq
          exact Option.some.inj hq
        exact ⟨(cell.1, value),
          mem_entries.mpr ⟨j, _, hi', List.getElem?_mem (getElem?_set_same hp)⟩, by rw [← hcc]⟩
      · refine ⟨c, mem_entries.mpr ⟨j, _, hi', ?_⟩, rfl⟩
        apply List.getElem?_mem (n := q)
        rw [List.getElem?_set_ne (Ne.symm hqp)]
        exact hq
    · refine ⟨c, mem_entries.mpr ⟨j, cj, ?_, hcj⟩, rfl⟩
      rw [e, List.getElem?_set_ne (Ne.symm hji)]
      exact hj

/-- With a hasher consistent with the key equality, the scan of the chain of `key` misses
exactly when no entry of the table has a key equal to `key`. -/
theorem scan_none_iff_absent {hash_ : K → Nat} {key_equal_ : K → K → Bool}
    (hcons : ∀ a b, key_equal_ a b = true → hash_ a = hash_ b) {t : HashTable K V}
    (h : WF hash_ t) (key : K) {chain : List (K × V)}
    (hc : t.hash_table_[hash_ key % t.bucket_count_]? = some chain) :
    scan (fun c => key_equal_ key c.1) chain = none ↔
      ∀ c ∈ entries t, key_equal_ key c.1 = false := by
  rw [scan_eq_none]
  constructor
  · intro hall c hm
    by_contra hne
    have hk : key_equal_ key c.1 = true := by simpa using hne
    obtain ⟨i, ci, hi, hmc⟩ := mem_entries.mp hm
    have hpl := h.placed i ci hi c hmc
    rw [← hcons key c.1 hk] at hpl
    rw [hpl, hi] at hc
    cases hc
    have := hall c hmc
    simp [hk] at this
  · intro hall c hm
    exact hall c (mem_entries.mpr ⟨_, chain, hc, hm⟩)

theorem found_iff_present {hash_ : K → Nat} {key_equal_ : K → K → Bool}
    (hcons : ∀ a b, key_equal_ a b = true → hash_ a = hash_ b) {t : HashTable K V}
    (h : WF hash_ t) (key : K) :
    Found hash_ key_equal_ t key ↔ ∃ c ∈ entries t, key_equal_ key c.1 = true := by
  obtain ⟨chain, hc, -⟩ := h.chain key
  have hiff := scan_none_iff_absent hcons h key hc
  cases hs : scan (fun c => key_equal_ key c.1) chain with
  | none =>
    obtain ⟨-, it, e, f1, f2, f3⟩ := lookup_miss key_equal_ h key hc hs
    have habs := hiff.mp hs
    constructor
    · rintro ⟨it', e', g1, g2, g3⟩
      rw [run_deterministic g1 f1, run_deterministic g2 f2, f3] at g3
      cases g3
    · rintro ⟨c, hm, hk⟩
      rw [habs c hm] at hk
      cases hk
  | some r =>
    obtain ⟨pos, cell⟩ := r
    obtain ⟨-, it, e, f1, f2, f3, -⟩ := lookup_hit key_equal_ h key hc hs
    obtain ⟨h1, h2, -⟩ := scan_eq_some hs
    exact ⟨fun _ => ⟨cell, mem_entries.mpr ⟨_, chain, hc, List.getElem?_mem h1⟩, h2⟩,
      fun _ => ⟨it, e, f1, f2, f3⟩⟩

theorem run_adds_keeps_present [Zero V] [DecidableEq V] {hash_ : K → Nat}
    (key_equal_ : K → K → Bool) {t : HashTable K V} (h : WF hash_ t) (op : Op K V)
    (ha : op.adds = true) :
    ∃ t', op.run hash_ key_equal_ t = .ok t' ∧ WF hash_ t' ∧
      ∀ k, (∃ c ∈ entries t, key_equal_ k c.1 = true) →
        ∃ c ∈ entries t', key_equal_ k c.1 = true := by
  obtain ⟨t1, t', -, -, -, hp, -, -, e, w, ht⟩ := run_adds_touched key_equal_ h op ha
  refine ⟨t', e, w, ?_⟩
  rintro k ⟨c, hm, hk⟩
  obtain ⟨c', hm', hc'⟩ := touched_keys ht c (hp.mem_iff.mpr hm)
  exact ⟨c', hm', by rw [hc']; exact hk⟩

theorem insert_leaves_present [DecidableEq V] {hash_ : K → Nat} (key_equal_ : K → K → Bool)
    (hrefl : ∀ a, key_equal_ a a = true) {t : HashTable K V} (h : WF hash_ t) (kvp : K × V) :
    ∃ t' r, insert hash_ key_equal_ t kvp = .ok (t', r) ∧
      ∃ c ∈ entries t', key_equal_ kvp.1 c.1 = true := by
  obtain ⟨t1, chain, hg, h1, -, hc⟩ := prologue h kvp.1
  have e := insert_eq key_equal_ hg h1 kvp hc
  cases hs : scan (fun cell => key_equal_ kvp.1 cell.1 && decide (cell.2 = kvp.2)) chain with
  | none =>
    simp only [hs] at e
    exact ⟨_, _, e, kvp, mem_entries.mpr ⟨_, _, getElem?_set_same hc, List.mem_cons_self _ _⟩,
      hrefl kvp.1⟩
  | some r =>
    obtain ⟨pos, cell⟩ := r
    simp only [hs] at e
    obtain ⟨hp, ht, -⟩ := scan_eq_some hs
    have hk : key_equal_ kvp.1 cell.1 = true ∧ cell.2 = kvp.2 := by simpa using ht
    exact ⟨_, _, e, cell, mem_entries.mpr ⟨_, chain, hc, List.getElem?_mem hp⟩, hk.1⟩

theorem run_inserts_present [Zero V] [DecidableEq V] {hash_ : K → Nat}
    (key_equal_ : K → K → Bool) (hrefl : ∀ a, key_equal_ a a = true) (kvs : List (K × V))
    {t : HashTable K V} (h : WF hash_ t) :
    ∃ t', run_ops hash_ key_equal_ t (kvs.map Op.insert) = .ok t' ∧ WF hash_ t' ∧
      (∀ k, (∃ c ∈ entries t, key_equal_ k c.1 = true) →
        ∃ c ∈ entries t', key_equal_ k c.1 = true) ∧
      ∀ kv ∈ kvs, ∃ c ∈ entries t', key_equal_ kv.1 c.1 = true := by
  induction kvs generalizing t with
  | nil => exact ⟨t, rfl, h, fun _ hk => hk, fun kv hkv => absurd hkv (List.not_mem_nil kv)⟩
  | cons kvp rest ih =>
    obtain ⟨t1, e1, w1, k1⟩ := run_adds_keeps_present key_equal_ h (Op.insert kvp) rfl
    obtain ⟨t1', r, e1', p1⟩ := insert_leaves_present key_equal_ hrefl h kvp
    have hsame : t1' = t1 := by
      have e1'' : (Op.insert kvp).run hash_ key_equal_ t = .ok t1' :=
        congrArg (Except.map Prod.fst) e1'
      exact run_deterministic e1'' e1
    rw [hsame] at p1
    obtain ⟨t2, e2, w2, k2, p2⟩ := ih w1
    refine ⟨t2, ?_, w2, fun k hk => k2 k (k1 k hk), ?_⟩
    · simp only [List.map_cons, run_ops, List.foldlM_cons, e1, bind, Except.bind]
      exact e2
    · intro kv hkv
      rcases List.mem_cons.mp hkv with rfl | hkv
      · exact k2 _ p1
      · exact p2 kv hkv

/-- C12: entries stay findable.  With a hasher consistent with a reflexive key equality, on
every reachable table a key `k` that `find` finds is still found after any further call of
`insert`, `emplace`, `operator[]` or `t[k'] = v`, rehash included; and after inserting any
sequence of pairs (1001 pairs with distinct keys in particular) into the default-constructed
table, every key of the sequence is found. -/
theorem entries_stay_findable [Zero V] [DecidableEq V] (hash_ : K → Nat)
    (key_equal_ : K → K → Bool) (hcons : ∀ a b, key_equal_ a b = true → hash_ a = hash_ b)
    (hrefl : ∀ a, key_equal_ a a = true) (t : HashTable K V)
    (hr : Reachable hash_ key_equal_ t) (k : K) (hf : Found hash_ key_equal_ t k) :
    (∀ op : Op K V, op.adds = true →
      ∃ t', op.run hash_ key_equal_ t = .ok t' ∧ Found hash_ key_equal_ t' k) ∧
    (∀ kvs : List (K × V), ∃ t',
      run_ops hash_ key_equal_ HashTable.new (kvs.map Op.insert) = .ok t' ∧
      ∀ kv ∈ kvs, Found hash_ key_equal_ t' kv.1) := by
  constructor
  · intro op ha
    obtain ⟨t', e, w, hk⟩ := run_adds_keeps_present key_equal_ hr.wf op ha
    exact ⟨t', e, (found_iff_present hcons w k).mpr (hk k ((found_iff_present hcons hr.wf k).mp hf))⟩
  · intro kvs
    obtain ⟨t', e, w, -, p⟩ := run_inserts_present key_equal_ hrefl kvs (WF.new hash_)
    exact ⟨t', e, fun kv hkv => (found_iff_present hcons w kv.1).mpr (p kv hkv)⟩

/-- Witness of C12: the table after `insert((5, 7))` on the default-constructed table, and
key 5. -/
theorem entries_stay_findable_witness :
    ∃ t : HashTable Nat Nat, Reachable id (fun a b : Nat => a == b) t ∧
      Found id (fun a b : Nat => a == b) t 5 ∧
      (∀ op : Op Nat Nat, op.adds = true →
        ∃ t', op.run id (fun a b : Nat => a == b) t = .ok t' ∧
          Found id (fun a b : Nat => a == b) t' 5) ∧
      (∀ kvs : List (Nat × Nat), ∃ t',
        run_ops id (fun a b : Nat => a == b) HashTable.new (kvs.map Op.insert) = .ok t' ∧
        ∀ kv ∈ kvs, Found id (fun a b : Nat => a == b) t' kv.1) := by
  have hcons : ∀ a b : Nat, (a == b) = true → id a = id b := fun a b h => by simpa using h
  have hrefl : ∀ a : Nat, (a == a) = true := fun a => by simp
  obtain ⟨t, r, e, p⟩ := insert_leaves_present (fun a b : Nat => a == b) hrefl (WF.new id)
    ((5 : Nat), (7 : Nat))
  have hr : Reachable id (fun a b : Nat => a == b) t :=
    Reachable.step (Op.insert (5, 7)) Reachable.init (by simp only [Op.run, e, Except.map])
  have hf : Found id (fun a b : Nat => a == b) t 5 := (found_iff_present hcons hr.wf 5).mpr p
  exact ⟨t, hr, hf, entries_stay_findable id (fun a b : Nat => a == b) hcons hrefl t hr 5 hf⟩

/-- The load invariant of the reachable tables. -/
theorem Reachable.load [Zero V] [DecidableEq V] {hash_ : K → Nat} {key_equal_ : K → K → Bool}
    {t : HashTable K V} (h : Reachable hash_ key_equal_ t) :
    t.size_ ≤ t.bucket_count_ ∧ ∃ j, t.bucket_count_ = 1000 * 2 ^ j := by
  induction h with
  | init => exact ⟨Nat.zero_le _, 0, rfl⟩
  | @step t t' op hr e ih =>
    obtain ⟨hle, j, hj⟩ := ih
    by_cases ha : op.adds = true
    · obtain ⟨t1, t2, -, -, s1, -, b1, b2, e2, -, s2, b2', -⟩ :=
        run_adds_touched key_equal_ hr.wf op ha
      have hsame : t2 = t' := run_deterministic e2 e
      subst hsame
      by_cases hh : t.size_ + 1 ≤ t.bucket_count_
      · exact ⟨by rw [s2, s1, b2', b1 hh]; exact hh, j, by rw [b2', b1 hh, hj]⟩
      · have hb := b2 (by omega)
        have hpos := hr.wf.pos
        refine ⟨by rw [s2, s1, b2', hb]; omega, j + 1, ?_⟩
        rw [b2', hb, hj, pow_succ]
        ring
    · cases op with
      | clear =>
        simp only [Op.run, Except.ok.injEq] at e
        rw [← e]
        exact ⟨Nat.zero_le _, 0, rfl⟩
      | index key => simp [Op.adds] at ha
      | index_assign key value => simp [Op.adds] at ha
      | insert kvp => simp [Op.adds] at ha
      | emplace key value => simp [Op.adds] at ha

/-- C19: load invariant.  On every reachable table `size() <= bucket_count_` and
`bucket_count_` is `1000 * 2^j` for some `j`; and a call of `operator[]`, `t[k] = v`, `insert`
or `emplace` leaves the bucket count as it was or doubles it once, with
`size() <= bucket_count_` again. -/
theorem load_invariant [Zero V] [DecidableEq V] (hash_ : K → Nat) (key_equal_ : K → K → Bool)
    (t : HashTable K V) (hr : Reachable hash_ key_equal_ t) :
    size t ≤ t.bucket_count_ ∧ (∃ j, t.bucket_count_ = 1000 * 2 ^ j) ∧
    (∀ op : Op K V, op.adds = true → ∃ t', op.run hash_ key_equal_ t = .ok t' ∧
      size t' ≤ t'.bucket_count_ ∧
      (t'.bucket_count_ = t.bucket_count_ ∨ t'.bucket_count_ = 2 * t.bucket_count_)) := by
  refine ⟨hr.load.1, hr.load.2, ?_⟩
  intro op ha
  obtain ⟨t1, t', -, -, -, -, b1, b2, e, -, -, b', -⟩ := run_adds_touched key_equal_ hr.wf op ha
  refine ⟨t', e, (Reachable.step op hr e).load.1, ?_⟩
  by_cases hh : t.size_ + 1 ≤ t.bucket_count_
  · exact Or.inl (by rw [b', b1 hh])
  · exact Or.inr (by rw [b', b2 (by omega)])

/-- Witness of C19: the default-constructed table over natural numbers. -/
theorem load_invariant_witness :
    size (HashTable.new : HashTable Nat Nat) ≤ (HashTable.new : HashTable Nat Nat).bucket_count_ ∧
    (∃ j, (HashTable.new : HashTable Nat Nat).bucket_count_ = 1000 * 2 ^ j) ∧
    (∀ op : Op Nat Nat, op.adds = true →
      ∃ t', op.run id (fun a b : Nat => a == b) (HashTable.new : HashTable Nat Nat) = .ok t' ∧
      size t' ≤ t'.bucket_count_ ∧
      (t'.bucket_count_ = (HashTable.new : HashTable Nat Nat).bucket_count_ ∨
        t'.bucket_count_ = 2 * (HashTable.new : HashTable Nat Nat).bucket_count_)) :=
  load_invariant id (fun a b : Nat => a == b) HashTable.new Reachable.init

/-! ## Cursors -/

/-- The list iterator at distance `pos` from the front of the chain of bucket `b`. -/
theorem chain_begin_eq (b : Nat) (chain : List (K × V)) :
    chain_begin b chain = if 0 < chain.length then .node b 0 else .past_end := by
  cases chain with
  | nil => rfl
  | cons c cs => simp [chain_begin]

theorem begin_eq {hash_ : K → Nat} {t : HashTable K V} (h : WF hash_ t) :
    ∃ chain, t.hash_table_[0]? = some chain ∧ begin t = .ok ⟨0, chain_begin 0 chain⟩ := by
  obtain ⟨chain, hc, hb⟩ := bucket_of_lt t.hash_table_ 0 (by rw [h.length_eq]; exact h.pos)
  exact ⟨chain, hc, by simp [begin, hb, bind, Except.bind, pure, Except.pure]⟩

/-- The loop of `operator++` never runs: its two conditions exclude each other. -/
theorem skip_exhausted_eq {hash_ : K → Nat} {t : HashTable K V} (h : WF hash_ t)
    (it : HashTableIterator) (hi : it.hash_table_index_ < t.bucket_count_) :
    skip_exhausted t it = .ok it := by
  obtain ⟨chain, hc, -⟩ := bucket_of_lt t.hash_table_ it.hash_table_index_
    (by rw [h.length_eq]; exact hi)
  unfold skip_exhausted
  rw [end_eq h]
  by_cases hp : it.iterator_ = .past_end
  · simp [HashTableIterator.ne, hp]
  · simp [HashTableIterator.ne, hp, hc]

theorem operator_increment_node {hash_ : K → Nat} {t : HashTable K V} (h : WF hash_ t)
    {i b pos : Nat} (hi : i < t.bucket_count_) {chain : List (K × V)}
    (hc : t.hash_table_[b]? = some chain) (hp : pos < chain.length) :
    operator_increment t ⟨i, .node b pos⟩ =
      .ok ⟨i, if pos + 1 < chain.length then .node b (pos + 1) else .past_end⟩ := by
  have hs := skip_exhausted_eq h ⟨i, .node b pos⟩ hi
  by_cases hn : pos + 1 < chain.length
  · simp [operator_increment, hs, end_eq h, HashTableIterator.ne, list_increment, bucket_ok hc,
      hn, bind, Except.bind, pure, Except.pure]
  · have he : pos + 1 = chain.length := by omega
    simp [operator_increment, hs, end_eq h, HashTableIterator.ne, list_increment, bucket_ok hc,
      he, bind, Except.bind, pure, Except.pure]

/-- From a position of a chain the loop `for (; it != end(); ++it)` yields the rest of that
chain and ends there, whatever the other buckets hold. -/
theorem traverse_from_chain {hash_ : K → Nat} {t : HashTable K V} (h : WF hash_ t)
    {i b : Nat} (hi : i < t.bucket_count_) {chain : List (K × V)}
    (hc : t.hash_table_[b]? = some chain) (fuel pos : Nat) (hf : chain.length - pos < fuel) :
    traverse_from t fuel ⟨i, if pos < chain.length then .node b pos else .past_end⟩ =
      .ok (some (chain.drop pos)) := by
  induction fuel generalizing pos with
  | zero => omega
  | succ fuel ih =>
    by_cases hp : pos < chain.length
    · have hd : deref t ⟨i, .node b pos⟩ = .ok chain[pos] :=
        deref_node hc (List.getElem?_eq_getElem hp)
      have hrec := ih (pos + 1) (by omega)
      simp only [if_pos hp]
      simp only [traverse_from, end_eq h, HashTableIterator.ne, hd, operator_increment_node h hi hc hp,
        hrec, bind, Except.bind, pure, Except.pure]
      rw [List.drop_eq_getElem_cons hp]
      simp
    · have hdrop : chain.drop pos = [] := List.drop_eq_nil_of_le (by omega)
      simp [traverse_from, end_eq h, HashTableIterator.ne, hp, hdrop, bind, Except.bind, pure,
        Except.pure]

/-- The full traversal yields the chain of bucket 0 and nothing else. -/
theorem traverse_eq {hash_ : K → Nat} {t : HashTable K V} (h : WF hash_ t)
    {chain : List (K × V)} (hc : t.hash_table_[0]? = some chain) (fuel : Nat)
    (hf : chain.length < fuel) : traverse t fuel = .ok (some chain) := by
  obtain ⟨chain', hc', hb⟩ := begin_eq h
  rw [hc] at hc'
  cases hc'
  have := traverse_from_chain h h.pos hc fuel 0 (by omega)
  rw [← chain_begin_eq] at this
  simp only [traverse, hb, bind, Except.bind, this, List.drop_zero]

/-- Below the growth threshold, `insert` of a pair whose chain is empty: the table it leaves. -/
theorem run_insert_fresh [Zero V] [DecidableEq V] {hash_ : K → Nat} (key_equal_ : K → K → Bool)
    {t : HashTable K V} (h : WF hash_ t) (hle : t.size_ + 1 ≤ t.bucket_count_) (kvp : K × V)
    (i : Nat) (hi : hash_ kvp.1 % t.bucket_count_ = i) (hc : t.hash_table_[i]? = some []) :
    ∃ t', (Op.insert kvp).run hash_ key_equal_ t = .ok t' ∧ WF hash_ t' ∧
      t'.hash_table_ = t.hash_table_.set i [kvp] ∧ t'.bucket_count_ = t.bucket_count_ ∧
      t'.size_ = t.size_ + 1 ∧ (entries t').Perm (kvp :: entries t) := by
  subst hi
  have w : WF hash_ ({ t with size_ := t.size_ + 1 } : HashTable K V) :=
    ⟨h.length_eq, h.pos, h.placed⟩
  have e := insert_eq key_equal_ (grow_of_le hash_ t hle) w kvp hc
  simp only [scan] at e
  exact ⟨_, congrArg (Except.map Prod.fst) e, w.push_front kvp hc, rfl, rfl, rfl,
    flatten_set_cons hc kvp⟩

/-- C13: iteration completeness.  After `insert((1, 10))`, `insert((2, 20))` and
`insert((3, 30))` on the default-constructed table with the identity hash, the table holds
the three pairs, in the buckets 1, 2 and 3, and the traversal
`for (it = begin(); it != end(); ++it)` ends at once and yields nothing: `begin()` is the
past-the-end iterator of the empty bucket 0, which compares equal to `end()`. -/
theorem traversal_misses_buckets :
    ∃ t : HashTable Nat Nat,
      run_ops id (fun a b : Nat => a == b) HashTable.new
        [Op.insert (1, 10), Op.insert (2, 20), Op.insert (3, 30)] = .ok t ∧
      (entries t).Perm [(3, 30), (2, 20), (1, 10)] ∧
      ∀ fuel, 0 < fuel → traverse t fuel = .ok (some []) := by
  have h0 : ∀ i, i < 1000 → (HashTable.new : HashTable Nat Nat).hash_table_[i]? = some [] :=
    fun i hi => List.getElem?_replicate_of_lt hi
  have hB : (HashTable.new : HashTable Nat Nat).bucket_count_ = 1000 := rfl
  have hN : (HashTable.new : HashTable Nat Nat).size_ = 0 := rfl
  obtain ⟨t1, e1, w1, a1, b1, n1, p1⟩ := run_insert_fresh (fun a b : Nat => a == b) (WF.new id)
    (by rw [hB, hN]; omega) ((1 : Nat), (10 : Nat)) 1 (by rw [hB]; rfl) (h0 1 (by omega))
  obtain ⟨t2, e2, w2, a2, b2, n2, p2⟩ := run_insert_fresh (fun a b : Nat => a == b) w1
    (by rw [b1, n1, hB, hN]; omega) ((2 : Nat), (20 : Nat)) 2 (by rw [b1, hB]; rfl)
    (by rw [a1, List.getElem?_set_ne (by omega)]; exact h0 2 (by omega))
  obtain ⟨t3, e3, w3, a3, b3, n3, p3⟩ := run_insert_fresh (fun a b : Nat => a == b) w2
    (by rw [b2, n2, b1, n1, hB, hN]; omega) ((3 : Nat), (30 : Nat)) 3 (by rw [b2, b1, hB]; rfl)
    (by
      rw [a2, a1, List.getElem?_set_ne (by omega), List.getElem?_set_ne (by omega)]
      exact h0 3 (by omega))
  refine ⟨t3, ?_, ?_, ?_⟩
  · simp only [run_ops, List.foldlM_cons, List.foldlM_nil, e1, e2, e3, bind, Except.bind]
    rfl
  · refine p3.trans (List.Perm.cons _ (p2.trans (List.Perm.cons _ ?_)))
    rw [entries_new] at p1
    exact p1
  · intro fuel hf
    have c0 : t3.hash_table_[0]? = some [] := by
      rw [a3, a2, a1, List.getElem?_set_ne (by omega), List.getElem?_set_ne (by omega),
        List.getElem?_set_ne (by omega)]
      exact h0 0 (by omega)
    exact traverse_eq w3 c0 fuel hf

/-- C14: `clear` resets.  After `clear()` on any table, `size()` is 0, `empty()` is true, the
bucket count is 1000, the bucket array is 1000 empty chains, `begin()` compares equal to
`end()`, the traversal yields nothing, and `at(k)` throws `std::out_of_range` for every key. -/
theorem clear_resets (hash_ : K → Nat) (key_equal_ : K → K → Bool) (t : HashTable K V) :
    size (clear t) = 0 ∧ empty (clear t) = true ∧ (clear t).bucket_count_ = 1000 ∧
    (clear t).hash_table_ = List.replicate 1000 [] ∧ (clear t).hash_table_.length = 1000 ∧
    (∃ b e, begin (clear t) = .ok b ∧ end_ (clear t) = .ok e ∧ b.ne e = false) ∧
    (∀ fuel, 0 < fuel → traverse (clear t) fuel = .ok (some [])) ∧
    ∀ k, at_ hash_ key_equal_ (clear t) k = .error .out_of_range := by
  have w := WF.clear hash_ t
  have h0 : ∀ i, i < 1000 → (clear t).hash_table_[i]? = some [] :=
    fun i hi => List.getElem?_replicate_of_lt hi
  refine ⟨rfl, rfl, rfl, rfl, List.length_replicate _ _, ?_, ?_, ?_⟩
  · obtain ⟨chain, hc, hb⟩ := begin_eq w
    rw [h0 0 (by omega)] at hc
    cases hc
    exact ⟨_, _, hb, end_eq w, by simp [HashTableIterator.ne, chain_begin]⟩
  · intro fuel hf
    exact traverse_eq w (h0 0 (by omega)) fuel hf
  · intro k
    have hc : (clear t).hash_table_[hash_ k % (clear t).bucket_count_]? = some [] :=
      h0 _ (Nat.mod_lt _ (Nat.succ_pos 999))
    exact (lookup_miss key_equal_ w k hc rfl).1

/-- C17: cursor advance across buckets.  After `insert((1, 10))` and `insert((2, 20))` on the
default-constructed table with the identity hash, the cursor `find(1)` is on `(1, 10)`, the
last entry of the chain of bucket 1, and bucket 2 holds `(2, 20)`; `operator++` leaves the
cursor in bucket 1 on the past-the-end iterator, which compares equal to `end()`. -/
theorem increment_stops_at_chain_end :
    ∃ (t : HashTable Nat Nat) (it it' e : HashTableIterator),
      run_ops id (fun a b : Nat => a == b) HashTable.new
        [Op.insert (1, 10), Op.insert (2, 20)] = .ok t ∧
      find id (fun a b : Nat => a == b) t 1 = .ok it ∧ deref t it = .ok (1, 10) ∧
      t.hash_table_[1]? = some [(1, 10)] ∧ t.hash_table_[2]? = some [(2, 20)] ∧
      operator_increment t it = .ok it' ∧ it' = ⟨1, .past_end⟩ ∧
      end_ t = .ok e ∧ it'.ne e = false := by
  have h0 : ∀ i, i < 1000 → (HashTable.new : HashTable Nat Nat).hash_table_[i]? = some [] :=
    fun i hi => List.getElem?_replicate_of_lt hi
  have hB : (HashTable.new : HashTable Nat Nat).bucket_count_ = 1000 := rfl
  have hN : (HashTable.new : HashTable Nat Nat).size_ = 0 := rfl
  obtain ⟨t1, e1, w1, a1, b1, n1, -⟩ := run_insert_fresh (fun a b : Nat => a == b) (WF.new id)
    (by rw [hB, hN]; omega) ((1 : Nat), (10 : Nat)) 1 (by rw [hB]; rfl) (h0 1 (by omega))
  obtain ⟨t2, e2, w2, a2, b2, n2, -⟩ := run_insert_fresh (fun a b : Nat => a == b) w1
    (by rw [b1, n1, hB, hN]; omega) ((2 : Nat), (20 : Nat)) 2 (by rw [b1, hB]; rfl)
    (by rw [a1, List.getElem?_set_ne (by omega)]; exact h0 2 (by omega))
  have hB2 : t2.bucket_count_ = 1000 := by rw [b2, b1, hB]
  have c1 : t2.hash_table_[1]? = some [(1, 10)] := by
    rw [a2, a1, List.getElem?_set_ne (by omega)]
    exact getElem?_set_same (h0 1 (by omega))
  have c2 : t2.hash_table_[2]? = some [(2, 20)] := by
    rw [a2]
    exact getElem?_set_same (by rw [a1, List.getElem?_set_ne (by omega)]; exact h0 2 (by omega))
  have hslot : id 1 % t2.bucket_count_ = 1 := by rw [hB2]; rfl
  have s1 : scan (fun c : Nat × Nat => (fun a b : Nat => a == b) 1 c.1) [(1, 10)]
      = some (0, (1, 10)) := by simp [scan]
  have hf := find_eq (fun a b : Nat => a == b) w2 1 (by rw [hslot]; exact c1)
  rw [s1, hslot] at hf
  have hi := operator_increment_node w2 (by rw [hB2]; omega : 1 < t2.bucket_count_) c1
    (Nat.succ_pos 0)
  refine ⟨t2, _, _, _, ?_, hf, deref_node c1 rfl, c1, c2, hi, rfl, end_eq w2,
    by simp [HashTableIterator.ne]⟩
  simp only [run_ops, List.foldlM_cons, List.foldlM_nil, e1, e2, bind, Except.bind]
  rfl

/-- C15: default-get semantics of `operator[]`.  On every reachable table, for a key `k` the
key equality accepts as equal to itself, `t[k]` returns; with `t1` the table after `++size_`
and the rehash it may trigger and `chain` the chain of bucket `hash_(k) % bucket_count_` of
`t1`: when `chain` holds a key-equal entry the table is `t1`, its entries are those before the
call, and the reference is to the first key-equal entry of `chain`; when it holds none,
`(k, 0)` is prepended to `chain`, the entries are `(k, 0)` and those before the call, and
`at(k)` then returns `0`.  On the default-constructed table `t[k]` leaves `size()` at 1 and
`at(k)` returns `0`. -/
theorem default_get [Zero V] [DecidableEq V] (hash_ : K → Nat) (key_equal_ : K → K → Bool)
    (t : HashTable K V) (hr : Reachable hash_ key_equal_ t) (k : K)
    (hrefl : key_equal_ k k = true) :
    (∃ (t1 : HashTable K V) (chain : List (K × V)) (t' : HashTable K V) (pos : Nat),
      grow hash_ t = .ok t1 ∧
      t1.hash_table_[hash_ k % t1.bucket_count_]? = some chain ∧
      operator_index hash_ key_equal_ t k = .ok (t', (hash_ k % t1.bucket_count_, pos)) ∧
      ((∃ cell ∈ chain, key_equal_ k cell.1 = true) →
        t' = t1 ∧ (entries t').Perm (entries t) ∧
        ∃ cell : K × V, chain[pos]? = some cell ∧ key_equal_ k cell.1 = true ∧
          ∀ j, j < pos → ∀ c : K × V, chain[j]? = some c → key_equal_ k c.1 = false) ∧
      ((∀ cell ∈ chain, key_equal_ k cell.1 = false) →
        pos = 0 ∧
        t'.hash_table_ = t1.hash_table_.set (hash_ k % t1.bucket_count_) ((k, 0) :: chain) ∧
        t'.bucket_count_ = t1.bucket_count_ ∧
        (entries t').Perm ((k, 0) :: entries t) ∧
        at_ hash_ key_equal_ t' k = .ok 0)) ∧
    (∃ t0 ref, operator_index hash_ key_equal_ (HashTable.new : HashTable K V) k
        = .ok (t0, ref) ∧
      size t0 = 1 ∧ at_ hash_ key_equal_ t0 k = .ok 0) := by
  constructor
  · obtain ⟨t1, hg, h1, -, hp, -, -⟩ := grow_spec hr.wf
    obtain ⟨chain, hc, -⟩ := h1.chain k
    have e := operator_index_eq key_equal_ hg h1 k hc
    cases hs : scan (fun cell => key_equal_ k cell.1) chain with
    | none =>
      simp only [hs] at e
      have hall := scan_eq_none.mp hs
      refine ⟨t1, chain, _, 0, hg, hc, e, ?_, ?_⟩
      · rintro ⟨cell, hm, hk⟩
        rw [hall cell hm] at hk
        cases hk
      · intro _
        have hc' := getElem?_set_same (b := (k, (0 : V)) :: chain) hc
        have hs' : scan (fun c => key_equal_ k c.1) ((k, (0 : V)) :: chain)
            = some (0, (k, 0)) := by simp [scan, hrefl]
        exact ⟨rfl, rfl, rfl, (flatten_set_cons hc (k, 0)).trans (List.Perm.cons _ hp),
          (lookup_hit key_equal_ (h1.push_front (k, 0) hc) k hc' hs').1⟩
    | some r =>
      obtain ⟨pos, cell⟩ := r
      simp only [hs] at e
      obtain ⟨h1', h2', h3'⟩ := scan_eq_some hs
      refine ⟨t1, chain, t1, pos, hg, hc, e, ?_, ?_⟩
      · intro _
        exact ⟨rfl, hp, cell, h1', h2', h3'⟩
      · intro hall
        have := hall cell (List.getElem?_mem h1')
        rw [h2'] at this
        cases this
  · have wn : WF hash_ (HashTable.new : HashTable K V) := WF.new hash_
    have w : WF hash_ ({ (HashTable.new : HashTable K V) with size_ := 1 }) :=
      ⟨wn.length_eq, wn.pos, wn.placed⟩
    have hg : grow hash_ (HashTable.new : HashTable K V)
        = .ok { (HashTable.new : HashTable K V) with size_ := 1 } :=
      grow_of_le hash_ HashTable.new (Nat.succ_le_succ (Nat.zero_le 999))
    have hc : ({ (HashTable.new : HashTable K V) with size_ := 1 } : HashTable K V).hash_table_[
        hash_ k % 1000]? = some [] :=
      List.getElem?_replicate_of_lt (Nat.mod_lt _ (Nat.succ_pos 999))
    have e := operator_index_eq key_equal_ hg w k hc
    simp only [scan] at e
    have hc' := getElem?_set_same (b := [(k, (0 : V))]) hc
    have hs' : scan (fun c => key_equal_ k c.1) [(k, (0 : V))] = some (0, (k, 0)) := by
      simp [scan, hrefl]
    exact ⟨_, _, e, rfl, (lookup_hit key_equal_ (w.push_front (k, 0) hc) k hc' hs').1⟩

/-- Witness of C15: key 5 on the default-constructed table over natural numbers. -/
theorem default_get_witness :
    (∃ (t1 : HashTable Nat Nat) (chain : List (Nat × Nat)) (t' : HashTable Nat Nat) (pos : Nat),
      grow id (HashTable.new : HashTable Nat Nat) = .ok t1 ∧
      t1.hash_table_[id 5 % t1.bucket_count_]? = some chain ∧
      operator_index id (fun a b : Nat => a == b) (HashTable.new : HashTable Nat Nat) 5
        = .ok (t', (id 5 % t1.bucket_count_, pos)) ∧
      ((∃ cell ∈ chain, (5 == cell.1) = true) →
        t' = t1 ∧ (entries t').Perm (entries (HashTable.new : HashTable Nat Nat)) ∧
        ∃ cell : Nat × Nat, chain[pos]? = some cell ∧ (5 == cell.1) = true ∧
          ∀ j, j < pos → ∀ c : Nat × Nat, chain[j]? = some c → (5 == c.1) = false) ∧
      ((∀ cell ∈ chain, (5 == cell.1) = false) →
        pos = 0 ∧
        t'.hash_table_ = t1.hash_table_.set (id 5 % t1.bucket_count_) ((5, 0) :: chain) ∧
        t'.bucket_count_ = t1.bucket_count_ ∧
        (entries t').Perm ((5, 0) :: entries (HashTable.new : HashTable Nat Nat)) ∧
        at_ id (fun a b : Nat => a == b) t' 5 = .ok 0)) ∧
    (∃ t0 ref, operator_index id (fun a b : Nat => a == b) (HashTable.new : HashTable Nat Nat) 5
        = .ok (t0, ref) ∧
      size t0 = 1 ∧ at_ id (fun a b : Nat => a == b) t0 5 = .ok 0) :=
  default_get id (fun a b : Nat => a == b) HashTable.new Reachable.init 5 (by decide)

/-- C16: bucket array well-formedness.  The constructor from the empty sequence returns a
table whose bucket array has no chain while `bucket_count_` is 1000, and on that table
`find`, `at`, `begin` and `end` all subscript the empty vector; `insert` and `operator[]` do
so too, as they do inside the constructor for a non-empty sequence. -/
theorem from_vector_array_not_sized [Zero V] [DecidableEq V] (hash_ : K → Nat)
    (key_equal_ : K → K → Bool) :
    ∃ t : HashTable K V, from_vector hash_ key_equal_ [] = .ok t ∧
      t.hash_table_.length = 0 ∧ t.bucket_count_ = 1000 ∧
      (∀ k, find hash_ key_equal_ t k = .error .undefined_behaviour) ∧
      (∀ k, at_ hash_ key_equal_ t k = .error .undefined_behaviour) ∧
      begin t = .error .undefined_behaviour ∧ end_ t = .error .undefined_behaviour ∧
      (∀ kvp, insert hash_ key_equal_ t kvp = .error .undefined_behaviour) ∧
      (∀ k, operator_index hash_ key_equal_ t k = .error .undefined_behaviour) := by
  refine ⟨{ hash_table_ := [], bucket_count_ := 1000, size_ := 0 }, rfl, rfl, rfl, ?_, ?_, ?_, ?_,
    ?_, ?_⟩
  · intro k
    simp [find, slot, bucket, bind, Except.bind]
  · intro k
    simp [at_, slot, bucket, bind, Except.bind]
  · simp [begin, bucket, bind, Except.bind]
  · simp [end_, bucket, bind, Except.bind, pure, Except.pure]
  · intro kvp
    simp [insert, grow, slot, bucket, bind, Except.bind]
  · intro k
    simp [operator_index, grow, slot, bucket, bind, Except.bind]

/-! ## What `at` returns, in terms of the entries -/

theorem at_out_of_range_iff {hash_ : K → Nat} {key_equal_ : K → K → Bool}
    (hcons : ∀ a b, key_equal_ a b = true → hash_ a = hash_ b) {t : HashTable K V}
    (h : WF hash_ t) (key : K) :
    at_ hash_ key_equal_ t key = .error .out_of_range ↔
      ∀ c ∈ entries t, key_equal_ key c.1 = false := by
  obtain ⟨chain, hc, -⟩ := h.chain key
  rw [← scan_none_iff_absent hcons h key hc, at_eq key_equal_ h key hc]
  cases scan (fun c => key_equal_ key c.1) chain with
  | none => simp
  | some r => simp

theorem at_ok_mem {hash_ : K → Nat} {key_equal_ : K → K → Bool} {t : HashTable K V}
    (h : WF hash_ t) {key : K} {v : V} (e : at_ hash_ key_equal_ t key = .ok v) :
    ∃ c ∈ entries t, key_equal_ key c.1 = true ∧ c.2 = v := by
  obtain ⟨chain, hc, -⟩ := h.chain key
  rw [at_eq key_equal_ h key hc] at e
  cases hs : scan (fun c => key_equal_ key c.1) chain with
  | none => simp [hs] at e
  | some r =>
    obtain ⟨pos, cell⟩ := r
    simp only [hs, Except.ok.injEq] at e
    obtain ⟨h1, h2, -⟩ := scan_eq_some hs
    exact ⟨cell, mem_entries.mpr ⟨_, chain, hc, List.getElem?_mem h1⟩, h2, e⟩

theorem at_total {hash_ : K → Nat} (key_equal_ : K → K → Bool) {t : HashTable K V}
    (h : WF hash_ t) (key : K) :
    at_ hash_ key_equal_ t key = .error .out_of_range ∨ ∃ v, at_ hash_ key_equal_ t key = .ok v := by
  obtain ⟨chain, hc, -⟩ := h.chain key
  rw [at_eq key_equal_ h key hc]
  cases scan (fun c => key_equal_ key c.1) chain with
  | none => exact Or.inl rfl
  | some r => exact Or.inr ⟨_, rfl⟩

/-- The entries after `t[key] = value`, against those of the table `t1` its opening leaves:
every key is kept, and an entry that is new or changed has the key `key` or the key of an
entry the scan accepted for `key`. -/
theorem index_assign_entries [Zero V] {hash_ : K → Nat} (key_equal_ : K → K → Bool)
    {t : HashTable K V} (h : WF hash_ t) (key : K) (value : V) :
    ∃ t1 t', grow hash_ t = .ok t1 ∧ WF hash_ t1 ∧ (entries t1).Perm (entries t) ∧
      index_assign hash_ key_equal_ t key value = .ok t' ∧ WF hash_ t' ∧
      (∀ c ∈ entries t1, ∃ c' ∈ entries t', c'.1 = c.1) ∧
      (∀ c' ∈ entries t', c' ∈ entries t1 ∨ c'.1 = key ∨
        ∃ c ∈ entries t1, c'.1 = c.1 ∧ key_equal_ key c.1 = true) := by
  obtain ⟨t1, hg, h1, -, hp, -, -⟩ := grow_spec h
  obtain ⟨chain, hc, -⟩ := h1.chain key
  have e := index_assign_eq key_equal_ hg h1 key value hc
  cases hs : scan (fun cell => key_equal_ key cell.1) chain with
  | none =>
    simp only [hs] at e
    refine ⟨t1, _, hg, h1, hp, e, h1.push_front (key, value) hc, ?_, ?_⟩
    · exact touched_keys ⟨rfl, rfl, Or.inr (Or.inl ⟨_, chain, (key, value), hc, rfl⟩)⟩
    · intro c' hm
      have hm' : c' ∈ (key, value) :: entries t1 :=
        (flatten_set_cons hc (key, value)).mem_iff.mp hm
      rcases List.mem_cons.mp hm' with rfl | hm'
      · exact Or.inr (Or.inl rfl)
      · exact Or.inl hm'
  | some r =>
    obtain ⟨pos, cell⟩ := r
    simp only [hs] at e
    obtain ⟨hp1, hp2, -⟩ := scan_eq_some hs
    refine ⟨t1, _, hg, h1, hp, e, h1.set_value hc hp1 value, ?_, ?_⟩
    · exact touched_keys
        ⟨rfl, rfl, Or.inr (Or.inr ⟨_, chain, pos, cell, value, hc, hp1, rfl⟩)⟩
    · intro c' hm
      obtain ⟨j, cj, hj, hcj⟩ := mem_entries.mp hm
      by_cases hji : j = hash_ key % t1.bucket_count_
      · subst hji
        have hj' : (t1.hash_table_.set (hash_ key % t1.bucket_count_)
            (chain.set pos (cell.1, value)))[hash_ key % t1.bucket_count_]? = some cj := hj
        rw [getElem?_set_same hc] at hj'
        cases hj'
        rcases List.mem_or_eq_of_mem_set hcj with hin | rfl
        · exact Or.inl (mem_entries.mpr ⟨_, chain, hc, hin⟩)
        · exact Or.inr (Or.inr ⟨cell, mem_entries.mpr ⟨_, chain, hc, List.getElem?_mem hp1⟩,
            rfl, hp2⟩)
      · have hj' : (t1.hash_table_.set (hash_ key % t1.bucket_count_)
            (chain.set pos (cell.1, value)))[j]? = some cj := hj
        rw [List.getElem?_set_ne (Ne.symm hji)] at hj'
        exact Or.inl (mem_entries.mpr ⟨j, cj, hj', hcj⟩)

/-- Overwriting the value of a cell the scan for `key` does not stop at leaves the result of
that scan as it was. -/
theorem scan_set_other (key_equal_ : K → K → Bool) (key : K) {chain : List (K × V)}
    {pos p : Nat} {cell c : K × V}
    (hs : scan (fun d => key_equal_ key d.1) chain = some (pos, cell))
    (hc : chain[p]? = some c) (hpp : p ≠ pos) (value : V) :
    scan (fun d => key_equal_ key d.1) (chain.set p (c.1, value)) = some (pos, cell) := by
  obtain ⟨h1, h2, h3⟩ := scan_eq_some hs
  apply scan_first
  · rw [List.getElem?_set_ne hpp]
    exact h1
  · exact h2
  · intro j hj d hd
    by_cases hjp : j = p
    · subst hjp
      rw [getElem?_set_same hc] at hd
      cases hd
      exact h3 j hj c hc
    · rw [List.getElem?_set_ne (Ne.symm hjp)] at hd
      exact h3 j hj d hd

/-- Below the growth threshold, `t[k'] = v'` leaves the value `at(k)` returns for a key `k`
that is not equal to `k'`. -/
theorem frame_below_threshold [Zero V] {hash_ : K → Nat} (key_equal_ : K → K → Bool)
    (hsymm : ∀ a b, key_equal_ a b = true → key_equal_ b a = true)
    (htrans : ∀ a b c, key_equal_ a b = true → key_equal_ b c = true → key_equal_ a c = true)
    {t t' : HashTable K V} (h : WF hash_ t) (hle : t.size_ + 1 ≤ t.bucket_count_) (k k' : K)
    (v' : V) (hne : key_equal_ k k' = false)
    (e : index_assign hash_ key_equal_ t k' v' = .ok t') (w' : WF hash_ t') {v : V}
    (ha : at_ hash_ key_equal_ t k = .ok v) : at_ hash_ key_equal_ t' k = .ok v := by
  have w1 : WF hash_ ({ t with size_ := t.size_ + 1 } : HashTable K V) :=
    ⟨h.length_eq, h.pos, h.placed⟩
  obtain ⟨chain, hc, -⟩ := h.chain k
  obtain ⟨chain', hc', -⟩ := h.chain k'
  rw [at_eq key_equal_ h k hc] at ha
  rw [index_assign_eq key_equal_ (grow_of_le hash_ t hle) w1 k' v' hc'] at e
  cases hs : scan (fun d => key_equal_ k d.1) chain with
  | none => simp [hs] at ha
  | some r =>
    obtain ⟨pos, cell⟩ := r
    simp only [hs, Except.ok.injEq] at ha
    obtain ⟨h1, h2, -⟩ := scan_eq_some hs
    -- the chain `at(k)` scans after the call
    have key : ∀ newchain : List (K × V),
        t'.hash_table_ = t.hash_table_.set (hash_ k' % t.bucket_count_) newchain →
        t'.bucket_count_ = t.bucket_count_ →
        (hash_ k % t.bucket_count_ = hash_ k' % t.bucket_count_ →
          ∃ q, scan (fun d => key_equal_ k d.1) newchain = some (q, cell)) →
        at_ hash_ key_equal_ t' k = .ok v := by
      intro newchain hht hB hsame
      by_cases hii : hash_ k % t.bucket_count_ = hash_ k' % t.bucket_count_
      · obtain ⟨q, hq⟩ := hsame hii
        have hcn : t'.hash_table_[hash_ k % t'.bucket_count_]? = some newchain := by
          rw [hht, hB, hii]
          exact getElem?_set_same hc'
        rw [at_eq key_equal_ w' k hcn, hq]
        exact congrArg Except.ok ha
      · have hcn : t'.hash_table_[hash_ k % t'.bucket_count_]? = some chain := by
          rw [hht, hB, List.getElem?_set_ne (Ne.symm hii)]
          exact hc
        rw [at_eq key_equal_ w' k hcn, hs]
        exact congrArg Except.ok ha
    cases hs' : scan (fun d => key_equal_ k' d.1) chain' with
    | none =>
      simp only [hs', Except.ok.injEq] at e
      apply key ((k', v') :: chain') (by rw [← e]) (by rw [← e])
      intro hii
      rw [hii, hc'] at hc
      cases hc
      exact ⟨pos + 1, by simp [scan, hne, hs]⟩
    | some r' =>
      obtain ⟨p, c⟩ := r'
      simp only [hs', Except.ok.injEq] at e
      obtain ⟨g1, g2, -⟩ := scan_eq_some hs'
      apply key (chain'.set p (c.1, v')) (by rw [← e]) (by rw [← e])
      intro hii
      rw [hii, hc'] at hc
      cases hc
      have hpp : p ≠ pos := by
        intro hpp
        rw [hpp, h1] at g1
        cases g1
        have := htrans k cell.1 k' h2 (hsymm k' cell.1 g2)
        rw [hne] at this
        cases this
      exact ⟨pos, scan_set_other key_equal_ k hs g1 hpp v'⟩

/-- C18, as amended: frame property of index-assign.  With a hasher consistent with a
symmetric and transitive key equality, on every reachable table and for keys `k`, `k'` that
are not key-equal, `t[k'] = v'` returns and `at(k)` throws `std::out_of_range` before the call
exactly when it does after; and when `at(k)` returned `v` before, it returns `v` after,
provided the call triggers no rehash (`size() + 1 <= bucket_count_`) or every stored entry
with a key equal to `k` has the value `v`. -/
theorem index_assign_frame [Zero V] [DecidableEq V] (hash_ : K → Nat)
    (key_equal_ : K → K → Bool) (hcons : ∀ a b, key_equal_ a b = true → hash_ a = hash_ b)
    (hsymm : ∀ a b, key_equal_ a b = true → key_equal_ b a = true)
    (htrans : ∀ a b c, key_equal_ a b = true → key_equal_ b c = true → key_equal_ a c = true)
    (t : HashTable K V) (hr : Reachable hash_ key_equal_ t) (k k' : K) (v' : V)
    (hne : key_equal_ k k' = false) :
    ∃ t', index_assign hash_ key_equal_ t k' v' = .ok t' ∧
      (at_ hash_ key_equal_ t k = .error .out_of_range ↔
        at_ hash_ key_equal_ t' k = .error .out_of_range) ∧
      ∀ v, at_ hash_ key_equal_ t k = .ok v →
        (size t + 1 ≤ t.bucket_count_ ∨
          ∀ c ∈ entries t, key_equal_ k c.1 = true → c.2 = v) →
        at_ hash_ key_equal_ t' k = .ok v := by
  have hw := hr.wf
  obtain ⟨t1, t', -, -, hp, e, w', keep, fresh⟩ := index_assign_entries key_equal_ hw k' v'
  have hiff : at_ hash_ key_equal_ t k = .error .out_of_range ↔
      at_ hash_ key_equal_ t' k = .error .out_of_range := by
    rw [at_out_of_range_iff hcons hw k, at_out_of_range_iff hcons w' k]
    constructor
    · intro hall c' hm
      rcases fresh c' hm with hin | hk | ⟨c, hin, hkey, -⟩
      · exact hall c' (hp.mem_iff.mp hin)
      · rw [hk]
        exact hne
      · rw [hkey]
        exact hall c (hp.mem_iff.mp hin)
    · intro hall c hm
      obtain ⟨c', hm', hkey⟩ := keep c (hp.mem_iff.mpr hm)
      rw [← hkey]
      exact hall c' hm'
  refine ⟨t', e, hiff, ?_⟩
  intro v ha hcase
  rcases hcase with hle | huni
  · exact frame_below_threshold key_equal_ hsymm htrans hw hle k k' v' hne e w' ha
  · rcases at_total key_equal_ w' k with hfail | ⟨v2, hv2⟩
    · rw [hiff.mpr hfail] at ha
      cases ha
    · obtain ⟨c', hm, hk, hval⟩ := at_ok_mem w' hv2
      rcases fresh c' hm with hin | hk' | ⟨c, hin, hkey, hkc⟩
      · rw [hv2, ← hval, huni c' (hp.mem_iff.mp hin) hk]
      · rw [hk', hne] at hk
        cases hk
      · rw [hkey] at hk
        have := htrans k c.1 k' hk (hsymm k' c.1 hkc)
        rw [hne] at this
        cases this

/-- Witness of C18: the table after `insert((3, 9))` on the default-constructed table over
natural numbers, on which `at(3)` returns 9, and the statement `t[5] = 7`. -/
theorem index_assign_frame_witness :
    ∃ t : HashTable Nat Nat, Reachable id (fun a b : Nat => a == b) t ∧
      ((3 : Nat) == 5) = false ∧ at_ id (fun a b : Nat => a == b) t 3 = .ok 9 ∧
      size t + 1 ≤ t.bucket_count_ ∧
      ∃ t', index_assign id (fun a b : Nat => a == b) t 5 7 = .ok t' ∧
        (at_ id (fun a b : Nat => a == b) t 3 = .error .out_of_range ↔
          at_ id (fun a b : Nat => a == b) t' 3 = .error .out_of_range) ∧
        ∀ v, at_ id (fun a b : Nat => a == b) t 3 = .ok v →
          (size t + 1 ≤ t.bucket_count_ ∨
            ∀ c ∈ entries t, (3 == c.1) = true → c.2 = v) →
          at_ id (fun a b : Nat => a == b) t' 3 = .ok v := by
  have hB : (HashTable.new : HashTable Nat Nat).bucket_count_ = 1000 := rfl
  have hN : (HashTable.new : HashTable Nat Nat).size_ = 0 := rfl
  obtain ⟨t, e, w, a, b, n, -⟩ := run_insert_fresh (fun a b : Nat => a == b) (WF.new id)
    (by rw [hB, hN]; omega) ((3 : Nat), (9 : Nat)) 3 (by rw [hB]; rfl)
    (List.getElem?_replicate_of_lt (by omega))
  have hr : Reachable id (fun a b : Nat => a == b) t :=
    Reachable.step (Op.insert (3, 9)) Reachable.init e
  have hc : t.hash_table_[id 3 % t.bucket_count_]? = some [(3, 9)] := by
    rw [a, b, hB]
    exact getElem?_set_same (List.getElem?_replicate_of_lt (by omega))
  have hs : scan (fun c : Nat × Nat => (fun a b : Nat => a == b) 3 c.1) [(3, 9)]
      = some (0, (3, 9)) := by simp [scan]
  exact ⟨t, hr, by decide, (lookup_hit (fun a b : Nat => a == b) w 3 hc hs).1,
    by rw [size, n, b, hB, hN]; omega,
    index_assign_frame id (fun a b : Nat => a == b) (fun a b h => by simpa using h)
      (fun a b h => by simp only [beq_iff_eq] at h ⊢; exact h.symm)
      (fun a b c h1 h2 => by simp only [beq_iff_eq] at h1 h2 ⊢; exact h1.trans h2)
      t hr 3 5 7 (by decide)⟩

/-! ## The order of a chain after `Rehash` -/

theorem rehash_chain_get (hash_ : K → Nat) {B : Nat} (hB : 0 < B) (fl : List (K × V))
    (acc : List (List (K × V))) (hlen : acc.length = B) (acc' : List (List (K × V)))
    (e : fl.foldlM (rehash_cell hash_ B) acc = .ok acc') (j : Nat) :
    acc'[j]?.getD [] =
      (fl.filter (fun c => decide (hash_ c.1 % B = j))).reverse ++ acc[j]?.getD [] := by
  induction fl generalizing acc with
  | nil =>
    have : acc' = acc := (Except.ok.inj e).symm
    rw [this]
    simp
  | cons cell rest ih =>
    obtain ⟨chain, h1, h2⟩ := rehash_cell_ok hash_ hB hlen cell
    have e' : rest.foldlM (rehash_cell hash_ B) (acc.set (hash_ cell.1 % B) (cell :: chain))
        = .ok acc' := by
      simpa [List.foldlM_cons, h2, bind, Except.bind] using e
    rw [ih _ (by simpa using hlen) e']
    by_cases hj : hash_ cell.1 % B = j
    · subst hj
      rw [getElem?_set_same h1, h1]
      simp [List.filter_cons]
    · rw [List.getElem?_set_ne hj]
      simp [List.filter_cons, hj]

theorem rehash_buckets_get (hash_ : K → Nat) {B : Nat} (hB : 0 < B) (ht : List (List (K × V)))
    (acc : List (List (K × V))) (hlen : acc.length = B) (hp : Placed hash_ B acc)
    (acc' : List (List (K × V)))
    (e : ht.foldlM (fun acc fl => fl.foldlM (rehash_cell hash_ B) acc) acc = .ok acc')
    (j : Nat) :
    acc'[j]?.getD [] =
      (ht.flatten.filter (fun c => decide (hash_ c.1 % B = j))).reverse ++ acc[j]?.getD [] := by
  induction ht generalizing acc with
  | nil =>
    have : acc' = acc := (Except.ok.inj e).symm
    rw [this]
    simp
  | cons fl rest ih =>
    obtain ⟨acc1, e1, l1, p1, -⟩ := rehash_chain hash_ hB fl acc hlen hp
    have e' : rest.foldlM (fun acc fl => fl.foldlM (rehash_cell hash_ B) acc) acc1
        = .ok acc' := by
      simpa [List.foldlM_cons, e1, bind, Except.bind] using e
    rw [ih acc1 l1 p1 e', rehash_chain_get hash_ hB fl acc hlen acc1 e1 j]
    simp [List.filter_append, List.reverse_append]

/-- After `Rehash` the chain of bucket `j` is, in reverse order, the entries of the old table
whose key hashes to `j` under the doubled bucket count. -/
theorem Rehash_chain_get (hash_ : K → Nat) (t : HashTable K V) (hB : 0 < t.bucket_count_)
    {t' : HashTable K V} (e : Rehash hash_ t = .ok t') (j : Nat) :
    t'.hash_table_[j]?.getD [] =
      ((entries t).filter (fun c => decide (hash_ c.1 % (t.bucket_count_ * 2) = j))).reverse := by
  have hB2 : 0 < t.bucket_count_ * 2 := by omega
  obtain ⟨acc, ea, -⟩ := rehash_buckets hash_ hB2 t.hash_table_
    (List.replicate (t.bucket_count_ * 2) []) (by simp) (placed_replicate _ _ _)
  have e2 : Rehash hash_ t = .ok ⟨acc, t.bucket_count_ * 2, t.size_⟩ := by
    simp [Rehash, ea, bind, Except.bind, pure, Except.pure]
  have hsame := run_deterministic e e2
  rw [hsame]
  have := rehash_buckets_get hash_ hB2 t.hash_table_ (List.replicate (t.bucket_count_ * 2) [])
    (by simp) (placed_replicate _ _ _) acc ea j
  rw [this, entries]
  have hnil : (List.replicate (t.bucket_count_ * 2) ([] : List (K × V)))[j]?.getD [] = [] := by
    rw [List.getElem?_replicate]
    split <;> rfl
  rw [hnil, List.append_nil]

theorem filter_flatten_only {α : Type} (P : α → Bool) (ht : List (List α)) (i0 : Nat)
    (h : ∀ i chain, ht[i]? = some chain → i ≠ i0 → ∀ c ∈ chain, P c = false) :
    ht.flatten.filter P = (ht[i0]?.getD []).filter P := by
  induction ht generalizing i0 with
  | nil => simp
  | cons b bs ih =>
    rw [List.flatten_cons, List.filter_append]
    cases i0 with
    | zero =>
      have hrest : bs.flatten.filter P = [] := by
        rw [List.filter_eq_nil_iff]
        intro c hm
        obtain ⟨chain, hmem, hc⟩ := List.mem_flatten.mp hm
        obtain ⟨i, hi⟩ := List.getElem?_of_mem hmem
        have := h (i + 1) chain (by simpa using hi) (by omega) c hc
        simp [this]
      rw [hrest, List.append_nil]
      simp
    | succ n =>
      have hhead : b.filter P = [] := by
        rw [List.filter_eq_nil_iff]
        intro c hm
        have := h 0 b (by simp) (by omega) c hm
        simp [this]
      rw [hhead, List.nil_append, ih n (fun i chain hi hne c hc =>
        h (i + 1) chain (by simpa using hi) (by omega) c hc)]
      simp

/-- After `Rehash` of a well-formed table with `B` buckets, the chain of bucket `j` is the
reversed selection, from the old chain of bucket `j % B`, of the entries hashing to `j`. -/
theorem Rehash_chain_of_old (hash_ : K → Nat) {t : HashTable K V} (h : WF hash_ t)
    {t' : HashTable K V} (e : Rehash hash_ t = .ok t') (j : Nat) {chain : List (K × V)}
    (hc : t.hash_table_[j % t.bucket_count_]? = some chain) :
    t'.hash_table_[j]?.getD [] =
      (chain.filter (fun c => decide (hash_ c.1 % (t.bucket_count_ * 2) = j))).reverse := by
  rw [Rehash_chain_get hash_ t h.pos e j, entries,
    filter_flatten_only _ t.hash_table_ (j % t.bucket_count_), hc]
  · rfl
  · intro i ci hi hne c hm
    by_contra hP
    have hP' : hash_ c.1 % (t.bucket_count_ * 2) = j := by simpa using hP
    have hpl := h.placed i ci hi c hm
    apply hne
    rw [← hpl, ← hP', Nat.mod_mul_right_mod]

/-! ## Building a table at the growth threshold -/

theorem Reachable.run_ops [Zero V] [DecidableEq V] {hash_ : K → Nat} {key_equal_ : K → K → Bool}
    (ops : List (Op K V)) {t t' : HashTable K V} (h : Reachable hash_ key_equal_ t)
    (e : HashTableLib.run_ops hash_ key_equal_ t ops = .ok t') : Reachable hash_ key_equal_ t' := by
  induction ops generalizing t with
  | nil =>
    have : t' = t := (Except.ok.inj e).symm
    rw [this]
    exact h
  | cons op rest ih =>
    cases h1 : op.run hash_ key_equal_ t with
    | error f => simp [HashTableLib.run_ops, List.foldlM_cons, h1, bind, Except.bind] at e
    | ok t1 =>
      apply ih (Reachable.step op h h1)
      simpa [HashTableLib.run_ops, List.foldlM_cons, h1, bind, Except.bind] using e

/-- Below the growth threshold, `insert` of a pair its chain does not hold: the table it
leaves. -/
theorem run_insert_absent [Zero V] [DecidableEq V] {hash_ : K → Nat} (key_equal_ : K → K → Bool)
    {t : HashTable K V} (h : WF hash_ t) (hle : t.size_ + 1 ≤ t.bucket_count_) (kvp : K × V)
    (i : Nat) (hi : hash_ kvp.1 % t.bucket_count_ = i) {chain : List (K × V)}
    (hc : t.hash_table_[i]? = some chain)
    (hs : scan (fun cell => key_equal_ kvp.1 cell.1 && decide (cell.2 = kvp.2)) chain = none) :
    ∃ t', (Op.insert kvp).run hash_ key_equal_ t = .ok t' ∧ WF hash_ t' ∧
      t'.hash_table_ = t.hash_table_.set i (kvp :: chain) ∧
      t'.bucket_count_ = t.bucket_count_ ∧ t'.size_ = t.size_ + 1 := by
  subst hi
  have w : WF hash_ ({ t with size_ := t.size_ + 1 } : HashTable K V) :=
    ⟨h.length_eq, h.pos, h.placed⟩
  have e := insert_eq key_equal_ (grow_of_le hash_ t hle) w kvp hc
  simp only [hs] at e
  exact ⟨_, congrArg (Except.map Prod.fst) e, w.push_front kvp hc, rfl, rfl, rfl⟩

/-- Below the growth threshold, `n` evaluations of `t[key]` for a key the table holds only
count. -/
theorem run_index_present_repeat [Zero V] [DecidableEq V] {hash_ : K → Nat}
    (key_equal_ : K → K → Bool) (key : K) (n : Nat) {t : HashTable K V} (h : WF hash_ t)
    {chain : List (K × V)} (hc : t.hash_table_[hash_ key % t.bucket_count_]? = some chain)
    {r : Nat × (K × V)} (hs : scan (fun cell => key_equal_ key cell.1) chain = some r)
    (hle : t.size_ + n ≤ t.bucket_count_) :
    ∃ t', run_ops hash_ key_equal_ t (List.replicate n (Op.index key)) = .ok t' ∧
      WF hash_ t' ∧ t'.hash_table_ = t.hash_table_ ∧ t'.bucket_count_ = t.bucket_count_ ∧
      t'.size_ = t.size_ + n := by
  induction n generalizing t with
  | zero => exact ⟨t, rfl, h, rfl, rfl, rfl⟩
  | succ n ih =>
    have w : WF hash_ ({ t with size_ := t.size_ + 1 } : HashTable K V) :=
      ⟨h.length_eq, h.pos, h.placed⟩
    have e := operator_index_eq key_equal_ (grow_of_le hash_ t (by omega)) w key hc
    simp only [hs] at e
    have e1 : (Op.index key).run hash_ key_equal_ t
        = .ok ({ t with size_ := t.size_ + 1 } : HashTable K V) :=
      congrArg (Except.map Prod.fst) e
    obtain ⟨t', e', w', a', b', n'⟩ := ih w hc (by show t.size_ + 1 + n ≤ t.bucket_count_; omega)
    refine ⟨t', ?_, w', a', b', by rw [n']; show t.size_ + 1 + n = t.size_ + (n + 1); omega⟩
    simp only [List.replicate_succ, run_ops, List.foldlM_cons, e1, bind, Except.bind]
    exact e'

theorem grow_of_gt (hash_ : K → Nat) (t : HashTable K V) (h : t.bucket_count_ < t.size_ + 1) :
    grow hash_ t = Rehash hash_ { t with size_ := t.size_ + 1 } := by
  simp [grow, h]

/-- Counterexample to C18: on the default-constructed table with the identity hash,
`insert((0, 1))`, `insert((0, 2))` and 998 evaluations of `t[0]` reach a table with `size()`
1000 on which `at(0)` returns 2; the statement `t[1] = 5` then rehashes, which reverses the
chain of key 0, and `at(0)` returns 1. -/
theorem index_assign_reorders_duplicates :
    ∃ t t' : HashTable Nat Nat,
      run_ops id (fun a b : Nat => a == b) HashTable.new
        ([Op.insert (0, 1), Op.insert (0, 2)] ++ List.replicate 998 (Op.index 0)) = .ok t ∧
      Reachable id (fun a b : Nat => a == b) t ∧ ((0 : Nat) == 1) = false ∧
      at_ id (fun a b : Nat => a == b) t 0 = .ok 2 ∧
      index_assign id (fun a b : Nat => a == b) t 1 5 = .ok t' ∧
      at_ id (fun a b : Nat => a == b) t' 0 = .ok 1 := by
  have h0 : ∀ i, i < 1000 → (HashTable.new : HashTable Nat Nat).hash_table_[i]? = some [] :=
    fun i hi => List.getElem?_replicate_of_lt hi
  have hB : (HashTable.new : HashTable Nat Nat).bucket_count_ = 1000 := rfl
  have hN : (HashTable.new : HashTable Nat Nat).size_ = 0 := rfl
  -- the two inserts
  obtain ⟨t1, e1, w1, a1, b1, n1⟩ := run_insert_absent (fun a b : Nat => a == b) (WF.new id)
    (by rw [hB, hN]; omega) ((0 : Nat), (1 : Nat)) 0 (by rw [hB]; rfl) (h0 0 (by omega)) rfl
  have c1 : t1.hash_table_[0]? = some [(0, 1)] := by
    rw [a1]
    exact getElem?_set_same (h0 0 (by omega))
  obtain ⟨t2, e2, w2, a2, b2, n2⟩ := run_insert_absent (fun a b : Nat => a == b) w1
    (by rw [b1, n1, hB, hN]; omega) ((0 : Nat), (2 : Nat)) 0 (by rw [b1, hB]; rfl) c1
    (by simp [scan])
  have hB2 : t2.bucket_count_ = 1000 := by rw [b2, b1, hB]
  have hN2 : t2.size_ = 2 := by rw [n2, n1, hN]
  have c2 : t2.hash_table_[0]? = some [(0, 2), (0, 1)] := by
    rw [a2]
    exact getElem?_set_same c1
  have d2 : t2.hash_table_[1]? = some [] := by
    rw [a2, a1, List.getElem?_set_ne (by omega), List.getElem?_set_ne (by omega)]
    exact h0 1 (by omega)
  have s2 : scan (fun c : Nat × Nat => (fun a b : Nat => a == b) 0 c.1) [(0, 2), (0, 1)]
      = some (0, (0, 2)) := by simp [scan]
  -- the 998 reads
  obtain ⟨t3, e3, w3, a3, b3, n3⟩ := run_index_present_repeat (fun a b : Nat => a == b) 0 998 w2
    (by rw [hB2]; exact c2) s2 (by rw [hB2, hN2])
  have hB3 : t3.bucket_count_ = 1000 := by rw [b3, hB2]
  have hN3 : t3.size_ = 1000 := by rw [n3, hN2]
  have c3 : t3.hash_table_[0]? = some [(0, 2), (0, 1)] := by rw [a3]; exact c2
  have d3 : t3.hash_table_[1]? = some [] := by rw [a3]; exact d2
  have erun : run_ops id (fun a b : Nat => a == b) HashTable.new
      ([Op.insert (0, 1), Op.insert (0, 2)] ++ List.replicate 998 (Op.index 0)) = .ok t3 := by
    rw [run_ops_append]
    have e12 : run_ops id (fun a b : Nat => a == b) HashTable.new
        [Op.insert (0, 1), Op.insert (0, 2)] = .ok t2 := by
      simp only [run_ops, List.foldlM_cons, List.foldlM_nil, e1, e2, bind, Except.bind]
      rfl
    rw [e12]
    exact e3
  have hat3 : at_ id (fun a b : Nat => a == b) t3 0 = .ok 2 :=
    (lookup_hit (fun a b : Nat => a == b) w3 0 (by rw [hB3]; exact c3) s2).1
  -- the rehashing assignment
  obtain ⟨t4, hg, w4, -, -, -, b4⟩ := grow_spec w3
  have hB4 : t4.bucket_count_ = 2000 := by rw [b4 (by rw [hB3, hN3]; omega), hB3]
  have hre : Rehash id ({ t3 with size_ := t3.size_ + 1 } : HashTable Nat Nat) = .ok t4 := by
    rw [← grow_of_gt id t3 (by rw [hB3, hN3]; omega)]
    exact hg
  have w3' : WF id ({ t3 with size_ := t3.size_ + 1 } : HashTable Nat Nat) :=
    ⟨w3.length_eq, w3.pos, w3.placed⟩
  have get4 : ∀ j, j < 2000 → ∀ chain, t3.hash_table_[j % 1000]? = some chain →
      t4.hash_table_[j]? = some
        ((chain.filter (fun c => decide (id c.1 % (1000 * 2) = j))).reverse) := by
    intro j hj chain hc
    have := Rehash_chain_of_old id w3' hre j (by show t3.hash_table_[j % t3.bucket_count_]? = _
                                                 rw [hB3]; exact hc)
    obtain ⟨c4, hc4, -⟩ := bucket_of_lt t4.hash_table_ j (by rw [w4.length_eq, hB4]; exact hj)
    rw [hc4] at this ⊢
    have hB3' : ({ t3 with size_ := t3.size_ + 1 } : HashTable Nat Nat).bucket_count_ = 1000 := hB3
    rw [hB3'] at this
    exact congrArg some this
  have c4 : t4.hash_table_[0]? = some [(0, 1), (0, 2)] := get4 0 (by omega) _ c3
  have d4 : t4.hash_table_[1]? = some [] := get4 1 (by omega) _ d3
  have e5 := index_assign_eq (fun a b : Nat => a == b) hg w4 1 5
    (by rw [hB4]; exact d4 : t4.hash_table_[id 1 % t4.bucket_count_]? = some [])
  simp only [scan] at e5
  have w5 := WF.index_assign w3 e5
  have c5 : ({ t4 with hash_table_ := t4.hash_table_.set (id 1 % t4.bucket_count_) [(1, 5)] } :
      HashTable Nat Nat).hash_table_[id 0 % t4.bucket_count_]? = some [(0, 1), (0, 2)] := by
    rw [hB4]
    show (t4.hash_table_.set 1 [(1, 5)])[0]? = _
    rw [List.getElem?_set_ne (by omega)]
    exact c4
  have s5 : scan (fun c : Nat × Nat => (fun a b : Nat => a == b) 0 c.1) [(0, 1), (0, 2)]
      = some (0, (0, 1)) := by simp [scan]
  exact ⟨t3, _, erun, Reachable.run_ops _ Reachable.init erun, by decide, hat3, e5,
    (lookup_hit (fun a b : Nat => a == b) w5 0 c5 s5).1⟩

/-! ## The keys stored by `operator[]` alone -/

theorem keys_match_found {key_equal_ : K → K → Bool}
    (hsymm : ∀ a b, key_equal_ a b = true → key_equal_ b a = true) {keys keys' seen : List K}
    (h : KeysMatch key_equal_ keys seen) (key : K) (hp : keys'.Perm keys)
    (hf : ∃ a ∈ keys, key_equal_ key a = true) : KeysMatch key_equal_ keys' (key :: seen) := by
  obtain ⟨h1, h2, h3, h4⟩ := h
  have hsym : ∀ {a b : K}, key_equal_ a b = false → key_equal_ b a = false := by
    intro a b hab
    by_contra hba
    have := hsymm b a (by simpa using hba)
    rw [hab] at this
    cases this
  refine ⟨(hp.pairwise_iff hsym).mpr h1, ?_, ?_, ?_⟩
  · intro a ha
    exact List.mem_cons_of_mem _ (h2 a (hp.mem_iff.mp ha))
  · intro s hs
    rcases List.mem_cons.mp hs with rfl | hs
    · obtain ⟨a, ha, hk⟩ := hf
      exact ⟨a, hp.mem_iff.mpr ha, hk⟩
    · obtain ⟨a, ha, hk⟩ := h3 s hs
      exact ⟨a, hp.mem_iff.mpr ha, hk⟩
  · obtain ⟨a, ha, hk⟩ := hf
    have hany : seen.any (fun s => key_equal_ key s) = true :=
      List.any_eq_true.mpr ⟨a, h2 a ha, hk⟩
    rw [hp.length_eq, h4, distinct_count, hany]
    simp

theorem keys_match_absent {key_equal_ : K → K → Bool} (hrefl : ∀ a, key_equal_ a a = true)
    (hsymm : ∀ a b, key_equal_ a b = true → key_equal_ b a = true)
    (htrans : ∀ a b c, key_equal_ a b = true → key_equal_ b c = true → key_equal_ a c = true)
    {keys keys' seen : List K} (h : KeysMatch key_equal_ keys seen) (key : K)
    (hp : keys'.Perm (key :: keys)) (hf : ∀ a ∈ keys, key_equal_ key a = false) :
    KeysMatch key_equal_ keys' (key :: seen) := by
  obtain ⟨h1, h2, h3, h4⟩ := h
  have hsym : ∀ {a b : K}, key_equal_ a b = false → key_equal_ b a = false := by
    intro a b hab
    by_contra hba
    have := hsymm b a (by simpa using hba)
    rw [hab] at this
    cases this
  refine ⟨(hp.pairwise_iff hsym).mpr (List.pairwise_cons.mpr ⟨hf, h1⟩), ?_, ?_, ?_⟩
  · intro a ha
    rcases List.mem_cons.mp (hp.mem_iff.mp ha) with rfl | ha
    · exact List.mem_cons_self _ _
    · exact List.mem_cons_of_mem _ (h2 a ha)
  · intro s hs
    rcases List.mem_cons.mp hs with rfl | hs
    · exact ⟨s, hp.mem_iff.mpr (List.mem_cons_self _ _), hrefl s⟩
    · obtain ⟨a, ha, hk⟩ := h3 s hs
      exact ⟨a, hp.mem_iff.mpr (List.mem_cons_of_mem _ ha), hk⟩
  · have hany : seen.any (fun s => key_equal_ key s) = false := by
      rw [List.any_eq_false]
      intro s hs hk
      obtain ⟨a, ha, hsa⟩ := h3 s hs
      have := htrans key s a hk hsa
      rw [hf a ha] at this
      cases this
    rw [hp.length_eq, List.length_cons, h4, distinct_count, hany]
    simp [Nat.add_comm]

theorem map_fst_set_value {chain : List (K × V)} {pos : Nat} {cell : K × V}
    (hp : chain[pos]? = some cell) (value : V) :
    (chain.set pos (cell.1, value)).map Prod.fst = chain.map Prod.fst := by
  induction chain generalizing pos with
  | nil => simp at hp
  | cons c cs ih =>
    cases pos with
    | zero =>
      simp at hp
      subst hp
      simp
    | succ n =>
      have := @ih n (by simpa using hp)
      simp [this]

theorem keys_set_value {ht : List (List (K × V))} {i pos : Nat} {chain : List (K × V)}
    {cell : K × V} (h : ht[i]? = some chain) (hp : chain[pos]? = some cell) (value : V) :
    (ht.set i (chain.set pos (cell.1, value))).flatten.map Prod.fst
      = ht.flatten.map Prod.fst := by
  induction ht generalizing i with
  | nil => simp at h
  | cons b bs ih =>
    cases i with
    | zero =>
      simp at h
      subst h
      simp [map_fst_set_value hp value]
    | succ i =>
      have := @ih i (by simpa using h)
      simp only [List.set_cons_succ, List.flatten_cons, List.map_append, this]

/-- One evaluation of `t[key]`, with or without an assignment, seen from the stored keys:
either a stored key is equal to `key` and the stored keys stay, or none is and `key` is
added. -/
theorem run_index_keys [Zero V] [DecidableEq V] {hash_ : K → Nat} (key_equal_ : K → K → Bool)
    (hcons : ∀ a b, key_equal_ a b = true → hash_ a = hash_ b) {t : HashTable K V}
    (h : WF hash_ t) (op : Op K V) (key : K)
    (hop : op = Op.index key ∨ ∃ value, op = Op.index_assign key value) :
    ∃ t', op.run hash_ key_equal_ t = .ok t' ∧ WF hash_ t' ∧
      (((∃ a ∈ (entries t).map Prod.fst, key_equal_ key a = true) ∧
          ((entries t').map Prod.fst).Perm ((entries t).map Prod.fst)) ∨
        ((∀ a ∈ (entries t).map Prod.fst, key_equal_ key a = false) ∧
          ((entries t').map Prod.fst).Perm (key :: (entries t).map Prod.fst))) := by
  obtain ⟨t1, hg, h1, -, hp, -, -⟩ := grow_spec h
  obtain ⟨chain, hc, -⟩ := h1.chain key
  have hiff := scan_none_iff_absent hcons h1 key hc
  have habsent : scan (fun c => key_equal_ key c.1) chain = none →
      ∀ a ∈ (entries t).map Prod.fst, key_equal_ key a = false := by
    intro hs a ha
    obtain ⟨c, hm, rfl⟩ := List.mem_map.mp ha
    exact hiff.mp hs c (hp.mem_iff.mpr hm)
  have hfound : ∀ pos cell, scan (fun c => key_equal_ key c.1) chain = some (pos, cell) →
      ∃ a ∈ (entries t).map Prod.fst, key_equal_ key a = true := by
    intro pos cell hs
    obtain ⟨g1, g2, -⟩ := scan_eq_some hs
    exact ⟨cell.1, List.mem_map.mpr ⟨cell,
      hp.mem_iff.mp (mem_entries.mpr ⟨_, chain, hc, List.getElem?_mem g1⟩), rfl⟩, g2⟩
  have hcons_perm : ∀ x : V,
      ((t1.hash_table_.set (hash_ key % t1.bucket_count_) ((key, x) :: chain)).flatten.map
        Prod.fst).Perm (key :: (entries t).map Prod.fst) := fun x =>
    ((flatten_set_cons hc (key, x)).map Prod.fst).trans (List.Perm.cons key (hp.map Prod.fst))
  rcases hop with rfl | ⟨value, rfl⟩
  · have e := operator_index_eq key_equal_ hg h1 key hc
    cases hs : scan (fun cell => key_equal_ key cell.1) chain with
    | none =>
      simp only [hs] at e
      exact ⟨_, congrArg (Except.map Prod.fst) e, h1.push_front (key, 0) hc,
        Or.inr ⟨habsent hs, hcons_perm 0⟩⟩
    | some r =>
      obtain ⟨pos, cell⟩ := r
      simp only [hs] at e
      exact ⟨_, congrArg (Except.map Prod.fst) e, h1,
        Or.inl ⟨hfound pos cell hs, hp.map Prod.fst⟩⟩
  · have e := index_assign_eq key_equal_ hg h1 key value hc
    cases hs : scan (fun cell => key_equal_ key cell.1) chain with
    | none =>
      simp only [hs] at e
      exact ⟨_, e, h1.push_front (key, value) hc, Or.inr ⟨habsent hs, hcons_perm value⟩⟩
    | some r =>
      obtain ⟨pos, cell⟩ := r
      simp only [hs] at e
      have g1 := (scan_eq_some hs).1
      refine ⟨_, e, h1.set_value hc g1 value, Or.inl ⟨hfound pos cell hs, ?_⟩⟩
      show ((t1.hash_table_.set (hash_ key % t1.bucket_count_)
        (chain.set pos (cell.1, value))).flatten.map Prod.fst).Perm _
      rw [keys_set_value hc g1 value]
      exact hp.map Prod.fst

theorem run_by_index_keys [Zero V] [DecidableEq V] {hash_ : K → Nat} (key_equal_ : K → K → Bool)
    (hcons : ∀ a b, key_equal_ a b = true → hash_ a = hash_ b)
    (hrefl : ∀ a, key_equal_ a a = true)
    (hsymm : ∀ a b, key_equal_ a b = true → key_equal_ b a = true)
    (htrans : ∀ a b c, key_equal_ a b = true → key_equal_ b c = true → key_equal_ a c = true)
    (ops : List (Op K V)) (honly : ∀ op ∈ ops, op.by_index = true) {t : HashTable K V}
    {seen : List K} (h : WF hash_ t) (hk : KeysMatch key_equal_ ((entries t).map Prod.fst) seen) :
    ∃ t', run_ops hash_ key_equal_ t ops = .ok t' ∧ WF hash_ t' ∧
      KeysMatch key_equal_ ((entries t').map Prod.fst) (ops.foldl Op.note seen) := by
  induction ops generalizing t seen with
  | nil => exact ⟨t, rfl, h, hk⟩
  | cons op rest ih =>
    have hrest : ∀ o ∈ rest, o.by_index = true := fun o ho => honly o (List.mem_cons_of_mem _ ho)
    have step : ∀ t1, op.run hash_ key_equal_ t = .ok t1 → WF hash_ t1 →
        KeysMatch key_equal_ ((entries t1).map Prod.fst) (Op.note seen op) →
        ∃ t', run_ops hash_ key_equal_ t (op :: rest) = .ok t' ∧ WF hash_ t' ∧
          KeysMatch key_equal_ ((entries t').map Prod.fst) ((op :: rest).foldl Op.note seen) := by
      intro t1 e1 w1 k1
      obtain ⟨t', e', w', k'⟩ := ih hrest w1 k1
      refine ⟨t', ?_, w', k'⟩
      simp only [run_ops, List.foldlM_cons, e1, bind, Except.bind]
      exact e'
    have index_case : ∀ key, (op = Op.index key ∨ ∃ value, op = Op.index_assign key value) →
        Op.note seen op = key :: seen →
        ∃ t', run_ops hash_ key_equal_ t (op :: rest) = .ok t' ∧ WF hash_ t' ∧
          KeysMatch key_equal_ ((entries t').map Prod.fst) ((op :: rest).foldl Op.note seen) := by
      intro key hop hnote
      obtain ⟨t1, e1, w1, hcase⟩ := run_index_keys key_equal_ hcons h op key hop
      apply step t1 e1 w1
      rw [hnote]
      rcases hcase with ⟨hf, hp⟩ | ⟨hf, hp⟩
      · exact keys_match_found hsymm hk key hp hf
      · exact keys_match_absent hrefl hsymm htrans hk key hp hf
    cases op with
    | index key => exact index_case key (Or.inl rfl) rfl
    | index_assign key value => exact index_case key (Or.inr ⟨value, rfl⟩) rfl
    | insert kvp =>
      have := honly (Op.insert kvp) (List.mem_cons_self _ _)
      simp [Op.by_index] at this
    | emplace key value =>
      have := honly (Op.emplace key value) (List.mem_cons_self _ _)
      simp [Op.by_index] at this
    | clear =>
      apply step (clear t) rfl (WF.clear hash_ t)
      have hnil : (entries (clear t)).map Prod.fst = [] := by
        have : entries (clear t) = [] := List.flatten_replicate_nil
        rw [this]
        rfl
      rw [hnil]
      exact ⟨List.Pairwise.nil, fun a ha => absurd ha (List.not_mem_nil a),
        fun s hs => absurd hs (List.not_mem_nil s), rfl⟩

/-- C20: key uniqueness under `operator[]`.  With a hasher consistent with a key equality that
is an equivalence relation, every sequence of calls of `operator[]`, `t[k] = v` and `clear`
on the default-constructed table returns a table in which no two stored entries have equal
keys, and the number of stored entries is the number of distinct keys used since the last
`clear`. -/
theorem index_assign_keys_unique [Zero V] [DecidableEq V] (hash_ : K → Nat)
    (key_equal_ : K → K → Bool) (hcons : ∀ a b, key_equal_ a b = true → hash_ a = hash_ b)
    (hrefl : ∀ a, key_equal_ a a = true)
    (hsymm : ∀ a b, key_equal_ a b = true → key_equal_ b a = true)
    (htrans : ∀ a b c, key_equal_ a b = true → key_equal_ b c = true → key_equal_ a c = true)
    (ops : List (Op K V)) (honly : ∀ op ∈ ops, op.by_index = true) :
    ∃ t : HashTable K V, run_ops hash_ key_equal_ HashTable.new ops = .ok t ∧
      (entries t).Pairwise (fun c d => key_equal_ c.1 d.1 = false) ∧
      (entries t).length = distinct_count key_equal_ (assigned_keys ops) := by
  have hnil : (entries (HashTable.new : HashTable K V)).map Prod.fst = [] := by
    rw [entries_new]
    rfl
  have h0 : KeysMatch key_equal_ ((entries (HashTable.new : HashTable K V)).map Prod.fst) [] := by
    rw [hnil]
    exact ⟨List.Pairwise.nil, fun a ha => absurd ha (List.not_mem_nil a),
      fun s hs => absurd hs (List.not_mem_nil s), rfl⟩
  obtain ⟨t, e, -, hpair, -, -, hlen⟩ :=
    run_by_index_keys key_equal_ hcons hrefl hsymm htrans ops honly (WF.new hash_) h0
  refine ⟨t, e, List.pairwise_map.mp hpair, ?_⟩
  rw [List.length_map] at hlen
  exact hlen

/-- Witness of C20: `t[1] = 5; t[2]; t[1] = 7;` over natural numbers, two distinct keys. -/
theorem index_assign_keys_unique_witness :
    (∀ op ∈ ([Op.index_assign 1 5, Op.index 2, Op.index_assign 1 7] : List (Op Nat Nat)),
      op.by_index = true) ∧
    ∃ t : HashTable Nat Nat,
      run_ops id (fun a b : Nat => a == b) HashTable.new
        [Op.index_assign 1 5, Op.index 2, Op.index_assign 1 7] = .ok t ∧
      (entries t).Pairwise (fun c d => (c.1 == d.1) = false) ∧
      (entries t).length = distinct_count (fun a b : Nat => a == b)
        (assigned_keys ([Op.index_assign 1 5, Op.index 2, Op.index_assign 1 7] :
          List (Op Nat Nat))) := by
  have honly : ∀ op ∈ ([Op.index_assign 1 5, Op.index 2, Op.index_assign 1 7] :
      List (Op Nat Nat)), op.by_index = true := by
    intro op hop
    simp only [List.mem_cons, List.mem_singleton, List.not_mem_nil, or_false] at hop
    rcases hop with rfl | rfl | rfl <;> rfl
  exact ⟨honly, index_assign_keys_unique id (fun a b : Nat => a == b)
    (fun a b h => by simpa using h) (fun a => by simp)
    (fun a b h => by simp only [beq_iff_eq] at h ⊢; exact h.symm)
    (fun a b c h1 h2 => by simp only [beq_iff_eq] at h1 h2 ⊢; exact h1.trans h2)
    [Op.index_assign 1 5, Op.index 2, Op.index_assign 1 7] honly⟩

end Claims

end HashTableLib
